import Mathlib

/-!
# A shallow embedding of the B+ tree index of `src/include/storage/index/bplustree.h`

The source instantiates `KeyType = ValueType = int64_t` and `KeyComparator =
std::less<int64_t>`; keys and values are only stored and compared (never
arithmetically combined), so `Int` models them exactly.  `uint16_t` counters
(`slotused`, slot indices, positions) stay within `0 ≤ _ ≤ 257` on every path
(capacity checks guard each increment), so `Nat` models them exactly: no
wrap-around is reachable.

Leaf nodes live behind raw sibling pointers (`LeafNode *right_sibling`,
`left_sibling`) in addition to the ownership tree, so leaves are modelled by a
heap (an allocation-ordered list of leaf records addressed by index, the model
of a pointer), while inner nodes — whose children are exclusively owned — are
modelled structurally.  A C++ array `keys[leaf_slotmax]` together with its
`slotused` counter is modelled by the list of its first `slotused` entries
(`slotused` is `keys.length`); slots beyond `slotused` are uninitialized
memory in the source and are never read on any defined path.
-/

/-- `static const uint16_t leaf_slotmax = 256` (bplustree.h line 43). -/
def leaf_slotmax : Nat := 256

/-- `static const uint16_t inner_slotmax = 256` (bplustree.h line 46). -/
def inner_slotmax : Nat := 256

/-- `struct LeafNode` (bplustree.h lines 116-127): the key/value slot arrays
(first `slotused` entries) plus the doubly linked sibling chain.  A sibling
pointer is an optional heap index (`none` models `nullptr`). -/
structure LeafNode where
  keys : List Int
  values : List Int
  right_sibling : Option Nat
  left_sibling : Option Nat
deriving DecidableEq, Repr

/-- `explicit LeafNode()` zero-initializes: no slots used, null siblings. -/
instance : Inhabited LeafNode := ⟨⟨[], [], none, none⟩⟩

/-- The heap of leaf records; a `LeafNode*` is an index into it.  Allocation
  (`std::make_shared<LeafNode>()`) appends at the end. -/
abbrev Heap := List LeafNode

/-- Dereference a leaf pointer.  Every dereference in the source happens at a
  valid index; the default is never reached on a reachable state. -/
def hget (heap : Heap) (i : Nat) : LeafNode := heap.getD i default

/-- `LeafNode::IsFull` (line 133): `slotused == leaf_slotmax`. -/
def LeafNode.IsFull (l : LeafNode) : Bool := l.keys.length == leaf_slotmax

/-- `FindFirstGreaterOrEqual` (lines 197-208 for leaves and 337-348 for inner
nodes; both members have the identical body, a linear scan over `keys`):
returns the first index `i` with `key < keys[i]`, else `slotused`.
The `slotused == 0` early return coincides with the `[]` case. -/
def FindFirstGreaterOrEqual (key : Int) : List Int → Nat
  | [] => 0
  | k :: ks => if key < k then 0 else FindFirstGreaterOrEqual key ks + 1

/-- `LeafNode::InsertAt` (lines 135-155): shift `keys[position..slotused)` and
`values[position..slotused)` right by one and write the new pair.  The source
guards `position > slotused` and `IsFull()` with exceptions; every call site
below establishes both guards, and `List.insertIdx` is the shift-and-write on
the valid prefix. -/
def LeafNode.InsertAt (l : LeafNode) (position : Nat) (key value : Int) : LeafNode :=
  { l with keys := l.keys.insertIdx position key,
           values := l.values.insertIdx position value }

/-- `LeafNode::Insert` (lines 157-195), record-level part: on a full leaf move
the upper half `keys[mid..slotused)`/`values[mid..slotused)` into a fresh right
sibling (null siblings, as constructed), take the new leaf's first key as split
key, and re-insert the incoming pair recursively into the half chosen by
`KeyComparator()(key, split_key)`; otherwise insert at the searched position.
The recursive call's returned pair is discarded by the source (`this->Insert`
as a statement), hence `.1`.  The sibling-chain splice (lines 179-186) needs
the heap and is performed by `heapLeafInsert` below, exactly after this
record-level work, as in the source. -/
def LeafNode.Insert (l : LeafNode) (key value : Int) :
    LeafNode × Option (LeafNode × Int) :=
  if h : l.IsFull then
    let mid := l.keys.length / 2
    let new_right_sibling : LeafNode :=
      { keys := l.keys.drop mid, values := l.values.drop mid,
        right_sibling := none, left_sibling := none }
    let self : LeafNode := { l with keys := l.keys.take mid, values := l.values.take mid }
    let split_key := new_right_sibling.keys.headD 0
    if key < split_key then
      ((self.Insert key value).1, some (new_right_sibling, split_key))
    else
      (self, some ((new_right_sibling.Insert key value).1, split_key))
  else
    (l.InsertAt (FindFirstGreaterOrEqual key l.keys) key value, none)
termination_by l.keys.length
decreasing_by
  · simp only [LeafNode.IsFull, leaf_slotmax, beq_iff_eq] at h
    simp [h]
  · simp only [LeafNode.IsFull, leaf_slotmax, beq_iff_eq] at h
    simp [h]

/-- Sibling-chain splice of `LeafNode::Insert` (lines 179-188), at heap level:
run the record-level insert on the leaf at `id`; on a split, allocate the new
right sibling and patch the chain (`old_right.left := new`, `new.right :=
old_right` when present; `this.right := new`, `new.left := this`), and return
the new pointer with the split key. -/
def heapLeafInsert (heap : Heap) (id : Nat) (key value : Int) :
    Heap × Option (Nat × Int) :=
  let l := hget heap id
  match l.Insert key value with
  | (self, none) => (heap.set id self, none)
  | (self, some (new_right_sibling, split_key)) =>
    let newId := heap.length
    let new1 : LeafNode :=
      { new_right_sibling with right_sibling := self.right_sibling,
                               left_sibling := some id }
    let self1 : LeafNode := { self with right_sibling := some newId }
    let heap1 := heap.set id self1 ++ [new1]
    let heap2 :=
      match self.right_sibling with
      | none => heap1
      | some r => heap1.set r { hget heap1 r with left_sibling := some newId }
    (heap2, some (newId, split_key))

/-- `struct node` (lines 69-111) with its two variants.  `LeafNode` data lives
in the heap (leaves are additionally reachable through sibling pointers), so
the leaf variant carries the pointer; `InnerNode` (lines 275-459) carries its
`slotused` separator keys and `slotused + 1` owned children inline. -/
inductive Node where
  | leafRef (id : Nat)
  | inner (keys : List Int) (children : List Node)

/-- `InnerNode::IsFull` (line 289): `slotused == leaf_slotmax` — the source
compares against the *leaf* capacity constant, not `inner_slotmax`. -/
def InnerNode.IsFull (slotused : Nat) : Bool := slotused == leaf_slotmax

/-- `InnerNode::InsertAt` (lines 350-375): insert separator `new_key` at
`position` and its right child at `position + 1`.  The guards of the source
(`position > slotused`, `IsFull`) are established at every call site below. -/
def InnerNode.InsertAt (keys : List Int) (children : List Node) (position : Nat)
    (new_key : Int) (right_child : Node) : List Int × List Node :=
  (keys.insertIdx position new_key, children.insertIdx (position + 1) right_child)

/-- The child-split handling of `InnerNode::Insert` (lines 298-333): given the
post-descent state (`children` already holds the updated descent child at
`child_position`) and the pair `(new_node, new_key)` reported by the child, if
full, split: move keys `[mid+1..slotused)` and children `[mid+1..slotused+1)`
to a new inner node, keep `mid` keys (`mid+1` children), promote `keys[mid]`
(read from the untruncated array, as the source does after updating
`slotused`), and place the pending pair in this node at `child_position` if
`child_position <= mid`, else in the new node at `child_position - (mid+1)`;
if not full, a plain `InsertAt`. -/
def InnerNode.handleSplit (keys : List Int) (children : List Node)
    (child_position : Nat) (new_node : Node) (new_key : Int) :
    (List Int × List Node) × Option (List Int × List Node × Int) :=
  if InnerNode.IsFull keys.length then
    let mid := keys.length / 2
    let new_keys := keys.drop (mid + 1)
    let new_children := children.drop (mid + 1)
    let self_keys := keys.take mid
    let self_children := children.take (mid + 1)
    let split_key := keys.getD mid 0
    if child_position ≤ mid then
      (InnerNode.InsertAt self_keys self_children child_position new_key new_node,
       some (new_keys, new_children, split_key))
    else
      ((self_keys, self_children),
       some ((InnerNode.InsertAt new_keys new_children (child_position - (mid + 1))
                new_key new_node).1,
             (InnerNode.InsertAt new_keys new_children (child_position - (mid + 1))
                new_key new_node).2,
             split_key))
  else
    (InnerNode.InsertAt keys children child_position new_key new_node, none)

/-- `node::Insert` dispatch (`LeafNode::Insert` lines 157-195 via the heap,
`InnerNode::Insert` lines 291-335): descend into
`children[FindFirstGreaterOrEqual(key)]`, then handle a reported child split.
Returns the updated subtree, the updated heap, and the optional
`(new_node, split_key)` pair for the caller.  The `none` arm of the child
lookup is unreachable on well-formed trees (the source would dereference a
null child there). -/
def Node.Insert (n : Node) (heap : Heap) (key value : Int) :
    Node × Heap × Option (Node × Int) :=
  match n with
  | .leafRef id =>
    match heapLeafInsert heap id key value with
    | (heap1, none) => (.leafRef id, heap1, none)
    | (heap1, some (newId, split_key)) =>
      (.leafRef id, heap1, some (.leafRef newId, split_key))
  | .inner keys children =>
    let child_position := FindFirstGreaterOrEqual key keys
    match hc : children[child_position]? with
    | none => (.inner keys children, heap, none)
    | some child =>
      match child.Insert heap key value with
      | (child1, heap1, none) =>
        (.inner keys (children.set child_position child1), heap1, none)
      | (child1, heap1, some (new_node, new_key)) =>
        match InnerNode.handleSplit keys (children.set child_position child1)
                child_position new_node new_key with
        | ((keys1, children1), none) => (.inner keys1 children1, heap1, none)
        | ((keys1, children1), some (keys2, children2, split_key)) =>
          (.inner keys1 children1, heap1,
           some (.inner keys2 children2, split_key))
termination_by sizeOf n
decreasing_by
  have hmem : child ∈ children := by
    rcases List.getElem?_eq_some_iff.mp hc with ⟨h1, h2⟩
    exact h2 ▸ List.getElem_mem h1
  have := List.sizeOf_lt_of_mem hmem
  simp only [Node.inner.sizeOf_spec]
  omega

/-- `BPlusTree::KeyValue` (lines 484-490); `KeyValue()` zero-initializes. -/
structure KeyValue where
  key : Int
  value : Int
deriving DecidableEq, Repr

instance : Inhabited KeyValue := ⟨⟨0, 0⟩⟩

/-- The tree object: the owned root (lines 466-467; `none` is the empty tree)
plus the leaf heap backing the leaf pointers. -/
structure BPlusTree where
  heap : Heap
  root : Option Node

/-- `explicit BPlusTree()` : `root(nullptr)`, nothing allocated. -/
def BPlusTree.empty : BPlusTree := ⟨[], none⟩

/-- `BPlusTree::Insert` (lines 547-577): allocate a leaf root when null, run
the root insert, and on a reported split install a fresh inner root with
`keys[0] = new_key`, `children = [old_root, new_child]`, `slotused = 1`.
The `unique_key` flag is accepted (default `false`) and never read, exactly as
in the source. -/
def BPlusTree.Insert (t : BPlusTree) (key value : Int)
    (unique_key : Bool := false) : BPlusTree :=
  let rh : Node × Heap :=
    match t.root with
    | none => (Node.leafRef t.heap.length, t.heap ++ [default])
    | some r => (r, t.heap)
  match rh.1.Insert rh.2 key value with
  | (root1, heap1, none) => ⟨heap1, some root1⟩
  | (root1, heap1, some (new_child, new_key)) =>
    ⟨heap1, some (.inner [new_key] [root1, new_child])⟩

/-- `BPlusTree::GetFirstLeaf` descent (lines 470-480): follow `children[0]`
from the root down to a leaf.  The `[]` arm is unreachable on well-formed
trees. -/
def Node.firstLeaf : Node → Option Nat
  | .leafRef id => some id
  | .inner _ [] => none
  | .inner _ (c :: _) => c.firstLeaf

def BPlusTree.GetFirstLeaf (t : BPlusTree) : Option Nat :=
  match t.root with
  | none => none
  | some r => r.firstLeaf

/-- `ForwardIterator` state (lines 605-613): leaf pointer, slot, and the `kv`
copy buffer filled by `operator->`. -/
structure ForwardIterator where
  current_leaf : Option Nat
  current_slot : Nat
  kv : KeyValue
deriving DecidableEq, Repr

/-- `Begin()` (line 591): iterator at the first leaf, slot 0. -/
def BPlusTree.Begin (t : BPlusTree) : ForwardIterator :=
  ⟨t.GetFirstLeaf, 0, default⟩

/-- `Begin(start_key)` / `ForwardIterator(BPlusTree*, const KeyType&)`
(lines 600, 615-619): the constructor initializes `current_leaf(nullptr),
current_slot(0)` and — apart from an early return on an empty tree — does
nothing else, so the result never points into the tree regardless of
`start_key`. -/
def BPlusTree.BeginKey (t : BPlusTree) (start_key : Int) : ForwardIterator :=
  ⟨none, 0, default⟩

/-- `ForwardIterator::IsEnd` (lines 621-631). -/
def ForwardIterator.IsEnd (it : ForwardIterator) (heap : Heap) : Bool :=
  match it.current_leaf with
  | none => true
  | some id =>
    (hget heap id).right_sibling == none
      && decide ((hget heap id).keys.length ≤ it.current_slot)

/-- `ForwardIterator::operator->` (lines 639-647): at end, throw
`std::out_of_range("Iterator is at end")` before any mutation; otherwise copy
the current pair into `kv` and return it.  A throwing method is modelled as
returning the object state after the call next to the `Except` result. -/
def ForwardIterator.Dereference (it : ForwardIterator) (heap : Heap) :
    ForwardIterator × Except String KeyValue :=
  if it.IsEnd heap then (it, .error "Iterator is at end")
  else
    let l := hget heap (it.current_leaf.getD 0)
    let kv : KeyValue := ⟨l.keys.getD it.current_slot 0, l.values.getD it.current_slot 0⟩
    ({ it with kv := kv }, .ok kv)

/-- `ForwardIterator::operator++(int)` (lines 654-667): at end, throw before
any mutation; otherwise step to the next slot if `current_slot + 1 <
slotused`, else to the right sibling at slot 0. -/
def ForwardIterator.Advance (it : ForwardIterator) (heap : Heap) :
    ForwardIterator × Except String Unit :=
  if it.IsEnd heap then (it, .error "Iterator is at end")
  else
    let l := hget heap (it.current_leaf.getD 0)
    if it.current_slot + 1 < l.keys.length then
      ({ it with current_slot := it.current_slot + 1 }, .ok ())
    else
      ({ it with current_leaf := l.right_sibling, current_slot := 0 }, .ok ())

/-- The observable scan: repeatedly dereference and advance until `IsEnd`,
collecting the yielded pairs.  `fuel` bounds the number of loop iterations;
any `fuel` at least the number of stored pairs yields the full sequence. -/
def iterScan (heap : Heap) : Nat → ForwardIterator → List KeyValue
  | 0, _ => []
  | fuel + 1, it =>
    if it.IsEnd heap then []
    else
      let d := it.Dereference heap
      match d.2 with
      | .error _ => []
      | .ok kv => kv :: iterScan heap fuel (d.1.Advance heap).1

/-- The key-sortedness loop of both `CheckIntegrity` members (leaf lines
246-253, inner lines 425-432): fail iff `keys[i] < keys[i-1]` for some `i`. -/
def sortedPairsCheck : List Int → Bool
  | [] => true
  | [_] => true
  | a :: b :: rest => !decide (b < a) && sortedPairsCheck (b :: rest)

/-- `LeafNode::CheckIntegrity` (lines 245-272): key order, then
`keys[0] ≥ lower_bound` and `keys[slotused-1] ≤ upper_bound` when the bound
pointers are non-null. -/
def LeafNode.CheckIntegrityB (l : LeafNode) (lower upper : Option Int) : Bool :=
  sortedPairsCheck l.keys
    && (match lower with
        | none => true
        | some lb => !decide (l.keys.getD 0 0 < lb))
    && (match upper with
        | none => true
        | some ub => !decide (ub < l.keys.getD (l.keys.length - 1) 0))

/-- The child key-range bounds used by `InnerNode::CheckIntegrity`
(lines 452-457): child 0 gets `(lower, keys[0])`, child `i` gets
`(keys[i-1], keys[i])`, child `slotused` gets `(keys[slotused-1], upper)`. -/
def childBounds : Option Int → Option Int → List Int → List (Option Int × Option Int)
  | lo, hi, [] => [(lo, hi)]
  | lo, hi, k :: ks => (lo, some k) :: childBounds (some k) hi ks

/-- `InnerNode::CheckIntegrity` (lines 416-458) and the leaf case: non-null
children for every slot in `[0, slotused]` (here: the child list has exactly
`slotused + 1` entries), key order, own bounds, then the recursive descent
with the separator bounds.  The source visits children in the order
`0, slotused, 1..slotused-1` and stops at the first violation; success is the
conjunction of all checks, which is what is modelled. -/
def Node.CheckIntegrityB (heap : Heap) : Node → Option Int → Option Int → Bool
  | .leafRef id, lower, upper => (hget heap id).CheckIntegrityB lower upper
  | .inner keys children, lower, upper =>
    decide (children.length = keys.length + 1)
      && sortedPairsCheck keys
      && (match lower with
          | none => true
          | some lb => !decide (keys.getD 0 0 < lb))
      && (match upper with
          | none => true
          | some ub => !decide (ub < keys.getD (keys.length - 1) 0))
      && ((children.zip (childBounds lower upper keys)).attach.all
            fun c => Node.CheckIntegrityB heap c.1.1 c.1.2.1 c.1.2.2)
termination_by n => sizeOf n
decreasing_by
  have hmem : c.1.1 ∈ children := (List.of_mem_zip c.2).1
  have := List.sizeOf_lt_of_mem hmem
  simp only [Node.inner.sizeOf_spec]
  omega

/-- `BPlusTree::CheckIntegrity` (lines 511-523): empty tree passes; otherwise
check the root with null bounds. -/
def BPlusTree.CheckIntegrityB (t : BPlusTree) : Bool :=
  match t.root with
  | none => true
  | some r => r.CheckIntegrityB t.heap none none

/-- In-order sequence of leaf pointers of a subtree. -/
def Node.leafIds : Node → List Nat
  | .leafRef id => [id]
  | .inner _ children => children.attach.flatMap fun c => c.1.leafIds
termination_by n => sizeOf n
decreasing_by
  have := List.sizeOf_lt_of_mem c.2
  simp only [Node.inner.sizeOf_spec]
  omega

/-- Depth (distance from this node) of each leaf, in order. -/
def Node.leafDepths : Node → List Nat
  | .leafRef _ => [0]
  | .inner _ children =>
    (children.attach.flatMap fun c => c.1.leafDepths).map (· + 1)
termination_by n => sizeOf n
decreasing_by
  have := List.sizeOf_lt_of_mem c.2
  simp only [Node.inner.sizeOf_spec]
  omega

/-- The stored pairs of the leaf at `id`. -/
def contentsOf (heap : Heap) (id : Nat) : List KeyValue :=
  List.zipWith KeyValue.mk (hget heap id).keys (hget heap id).values

/-- All pairs stored in a subtree, in leaf order. -/
def Node.contents (heap : Heap) (n : Node) : List KeyValue :=
  n.leafIds.flatMap (contentsOf heap)

/-- All pairs stored in the tree, in leaf order. -/
def BPlusTree.contents (t : BPlusTree) : List KeyValue :=
  match t.root with
  | none => []
  | some r => r.contents t.heap

/-- A finite sequence of `Insert` calls on an initially empty tree. -/
def BPlusTree.build (ops : List (Int × Int)) : BPlusTree :=
  ops.foldl (fun t kv => t.Insert kv.1 kv.2) BPlusTree.empty

/-! ## Basic unfolding lemmas -/

/-- A non-full leaf inserts at the searched position and reports no split
(`LeafNode::Insert`, lines 190-194). -/
theorem LeafNode.insert_nonfull (l : LeafNode) (key value : Int)
    (h : l.IsFull = false) :
    l.Insert key value
      = (l.InsertAt (FindFirstGreaterOrEqual key l.keys) key value, none) := by
  rw [LeafNode.Insert]
  simp [h]

/-- C9: `InnerNode::IsFull` compares `slotused` against the leaf capacity
constant `leaf_slotmax` (= 256), not against `inner_slotmax`; the fullness
threshold of inner nodes is exactly `leaf_slotmax`. -/
theorem InnerNode.isFull_iff_leaf_slotmax :
    (∀ slotused : Nat, InnerNode.IsFull slotused = true ↔ slotused = leaf_slotmax)
      ∧ leaf_slotmax = 256 ∧ inner_slotmax = 256 := by
  exact ⟨fun s => by simp [InnerNode.IsFull], rfl, rfl⟩

/-- C3 (divergence witness): `Begin(start_key)` never positions into the tree —
its constructor leaves `current_leaf = nullptr` — so even with the pair
`(5, 5)` stored (key `5 ≥ 3`), `Begin(3)` is at-end immediately and yields
nothing, contradicting both the spec sentence and the source's own comment on
`Begin(const KeyType&)` (lines 593-599). -/
theorem beginKey_always_at_end :
    (∀ (t : BPlusTree) (q : Int), t.BeginKey q = ⟨none, 0, default⟩)
      ∧ (BPlusTree.empty.Insert 5 5).contents = [⟨5, 5⟩]
      ∧ (((BPlusTree.empty.Insert 5 5).BeginKey 3).IsEnd
          (BPlusTree.empty.Insert 5 5).heap) = true
      ∧ iterScan (BPlusTree.empty.Insert 5 5).heap 1
          ((BPlusTree.empty.Insert 5 5).BeginKey 3) = [] := by
  refine ⟨fun t q => rfl, ?_, rfl, rfl⟩
  have h1 : BPlusTree.empty.Insert 5 5
      = ⟨[⟨[5], [5], none, none⟩], some (.leafRef 0)⟩ := by
    have hd : (default : LeafNode) = ⟨[], [], none, none⟩ := rfl
    simp [BPlusTree.empty, BPlusTree.Insert, Node.Insert, heapLeafInsert, hd,
      LeafNode.insert_nonfull, LeafNode.IsFull, leaf_slotmax, LeafNode.InsertAt,
      FindFirstGreaterOrEqual, hget]
  rw [h1]
  simp [BPlusTree.contents, Node.contents, Node.leafIds, contentsOf, hget]

/-- C7: `operator->` returns the current pair by copy when not at-end and
fails with the end-of-sequence error when at-end; `operator++` moves to the
next slot of the current leaf when `current_slot + 1 < slotused`, else to the
right sibling at slot 0, and fails with the end-of-sequence error when
already at-end; both failures leave the iterator (in particular its leaf
reference and slot) unchanged. -/
theorem iterator_error_handling (it : ForwardIterator) (heap : Heap) :
    (it.IsEnd heap = false →
      (it.Dereference heap).2
          = .ok ⟨(hget heap (it.current_leaf.getD 0)).keys.getD it.current_slot 0,
                 (hget heap (it.current_leaf.getD 0)).values.getD it.current_slot 0⟩
        ∧ (it.Dereference heap).1.current_leaf = it.current_leaf
        ∧ (it.Dereference heap).1.current_slot = it.current_slot)
    ∧ (it.IsEnd heap = true →
        it.Dereference heap = (it, .error "Iterator is at end"))
    ∧ (it.IsEnd heap = false →
        it.Advance heap
          = if it.current_slot + 1 < (hget heap (it.current_leaf.getD 0)).keys.length
            then ({ it with current_slot := it.current_slot + 1 }, .ok ())
            else ({ it with
                      current_leaf := (hget heap (it.current_leaf.getD 0)).right_sibling,
                      current_slot := 0 }, .ok ()))
    ∧ (it.IsEnd heap = true →
        it.Advance heap = (it, .error "Iterator is at end")) := by
  refine ⟨fun h => ?_, fun h => ?_, fun h => ?_, fun h => ?_⟩
  · simp [ForwardIterator.Dereference, h]
  · simp [ForwardIterator.Dereference, h]
  · simp only [ForwardIterator.Advance, h, Bool.false_eq_true, if_false]
  · simp [ForwardIterator.Advance, h]

/-- Witness for the four hypotheses of `iterator_error_handling`: a one-pair
heap with a live iterator (`some 0`, slot 0) and an at-end iterator
(`nullptr` leaf). -/
theorem iterator_error_handling_witness :
    ((⟨some 0, 0, default⟩ : ForwardIterator).IsEnd [⟨[1], [2], none, none⟩] = false
      ∧ ((⟨some 0, 0, default⟩ : ForwardIterator).Dereference [⟨[1], [2], none, none⟩]).2
          = .ok ⟨1, 2⟩)
    ∧ ((⟨none, 0, default⟩ : ForwardIterator).IsEnd [⟨[1], [2], none, none⟩] = true
      ∧ (⟨none, 0, default⟩ : ForwardIterator).Advance [⟨[1], [2], none, none⟩]
          = (⟨none, 0, default⟩, .error "Iterator is at end")) := by
  constructor
  · refine ⟨by decide, ?_⟩
    have h := (iterator_error_handling ⟨some 0, 0, default⟩ [⟨[1], [2], none, none⟩]).1
      (by decide)
    exact h.1
  · refine ⟨by decide, ?_⟩
    have h := (iterator_error_handling ⟨none, 0, default⟩ [⟨[1], [2], none, none⟩]).2.2.2
      (by decide)
    exact h

/-- C10: `operator->` never advances the iterator: the leaf reference and the
slot index are unchanged, and dereferencing twice in a row (threading the
returned object state, which only refreshes the `kv` buffer) returns the same
pair both times. -/
theorem dereference_does_not_advance (it : ForwardIterator) (heap : Heap)
    (h : it.IsEnd heap = false) :
    (it.Dereference heap).1.current_leaf = it.current_leaf
    ∧ (it.Dereference heap).1.current_slot = it.current_slot
    ∧ ((it.Dereference heap).1.Dereference heap).2 = (it.Dereference heap).2
    ∧ ∃ kv, (it.Dereference heap).2 = .ok kv := by
  obtain ⟨l, s, kv⟩ := it
  have h2 : ∀ kv0 : KeyValue, ForwardIterator.IsEnd ⟨l, s, kv0⟩ heap = false :=
    fun kv0 => h
  simp only [ForwardIterator.Dereference, h2, Bool.false_eq_true, if_false]
  exact ⟨trivial, trivial, trivial, _, rfl⟩

/-- Witness for `dereference_does_not_advance` on a concrete live iterator. -/
theorem dereference_does_not_advance_witness :
    (⟨some 0, 0, default⟩ : ForwardIterator).IsEnd [⟨[1], [2], none, none⟩] = false
    ∧ ((⟨some 0, 0, default⟩ : ForwardIterator).Dereference
        [⟨[1], [2], none, none⟩]).1.current_slot = 0 := by
  refine ⟨by decide, ?_⟩
  exact (dereference_does_not_advance ⟨some 0, 0, default⟩ [⟨[1], [2], none, none⟩]
    (by decide)).2.1

/-- Reading the head of a dropped suffix is reading at the drop index. -/
theorem headD_drop (l : List Int) (n : Nat) (d : Int) :
    (l.drop n).headD d = l.getD n d := by
  simp [List.headD_eq_head?_getD, List.head?_drop, List.getD_eq_getElem?_getD]

/-- The full-leaf split equation of `LeafNode::Insert`, in helper form. -/
theorem leaf_split_insert_aux (l : LeafNode) (key value : Int)
    (hfull : l.IsFull = true) (hv : l.values.length = l.keys.length) :
    (l.keys.drop (l.keys.length / 2)).length = l.keys.length - l.keys.length / 2
    ∧ (l.keys.take (l.keys.length / 2)).length = l.keys.length / 2
    ∧ (if key < l.keys.getD (l.keys.length / 2) 0 then
        l.Insert key value
          = (({ l with keys := l.keys.take (l.keys.length / 2),
                       values := l.values.take (l.keys.length / 2) } : LeafNode).InsertAt
               (FindFirstGreaterOrEqual key (l.keys.take (l.keys.length / 2))) key value,
             some (⟨l.keys.drop (l.keys.length / 2), l.values.drop (l.keys.length / 2),
                    none, none⟩,
                   l.keys.getD (l.keys.length / 2) 0))
          ∧ (({ l with keys := l.keys.take (l.keys.length / 2),
                       values := l.values.take (l.keys.length / 2) } : LeafNode).Insert
               key value).2 = none
      else
        l.Insert key value
          = ({ l with keys := l.keys.take (l.keys.length / 2),
                      values := l.values.take (l.keys.length / 2) },
             some ((⟨l.keys.drop (l.keys.length / 2), l.values.drop (l.keys.length / 2),
                     none, none⟩ : LeafNode).InsertAt
                     (FindFirstGreaterOrEqual key (l.keys.drop (l.keys.length / 2)))
                     key value,
                   l.keys.getD (l.keys.length / 2) 0))
          ∧ ((⟨l.keys.drop (l.keys.length / 2), l.values.drop (l.keys.length / 2),
               none, none⟩ : LeafNode).Insert key value).2 = none) := by
  have hlen : l.keys.length = 256 := by
    simpa [LeafNode.IsFull, leaf_slotmax] using hfull
  have hkept : ({ l with keys := l.keys.take (l.keys.length / 2),
                         values := l.values.take (l.keys.length / 2) } : LeafNode).IsFull
      = false := by
    simp [LeafNode.IsFull, leaf_slotmax, hlen]
  have hmoved : ((⟨l.keys.drop (l.keys.length / 2), l.values.drop (l.keys.length / 2),
                  none, none⟩ : LeafNode)).IsFull = false := by
    simp [LeafNode.IsFull, leaf_slotmax, hlen]
  refine ⟨by simp [hlen], by simp [hlen], ?_⟩
  rw [LeafNode.Insert]
  simp only [hfull, reduceDIte, headD_drop]
  split
  · exact ⟨by rw [LeafNode.insert_nonfull _ _ _ hkept],
           by rw [LeafNode.insert_nonfull _ _ _ hkept]⟩
  · exact ⟨by rw [LeafNode.insert_nonfull _ _ _ hmoved],
           by rw [LeafNode.insert_nonfull _ _ _ hmoved]⟩

/-- C4: inserting into a full leaf (`slotused = leaf_slotmax = 256`) splits it
at `mid = slotused / 2`: the upper half of keys and values moves to the new
right leaf (`slotused - mid` entries), the original keeps `mid` entries, the
split key is the first key of the new leaf (`keys[mid]` of the original), and
the incoming pair is then inserted (without a further split) into the original
leaf when `key < split_key` and into the new leaf otherwise. -/
theorem leaf_split_insert (l : LeafNode) (key value : Int)
    (hfull : l.IsFull = true) (hv : l.values.length = l.keys.length) :
    (l.keys.drop (l.keys.length / 2)).length = l.keys.length - l.keys.length / 2
    ∧ (l.keys.take (l.keys.length / 2)).length = l.keys.length / 2
    ∧ (if key < l.keys.getD (l.keys.length / 2) 0 then
        l.Insert key value
          = (({ l with keys := l.keys.take (l.keys.length / 2),
                       values := l.values.take (l.keys.length / 2) } : LeafNode).InsertAt
               (FindFirstGreaterOrEqual key (l.keys.take (l.keys.length / 2))) key value,
             some (⟨l.keys.drop (l.keys.length / 2), l.values.drop (l.keys.length / 2),
                    none, none⟩,
                   l.keys.getD (l.keys.length / 2) 0))
          ∧ (({ l with keys := l.keys.take (l.keys.length / 2),
                       values := l.values.take (l.keys.length / 2) } : LeafNode).Insert
               key value).2 = none
      else
        l.Insert key value
          = ({ l with keys := l.keys.take (l.keys.length / 2),
                      values := l.values.take (l.keys.length / 2) },
             some ((⟨l.keys.drop (l.keys.length / 2), l.values.drop (l.keys.length / 2),
                     none, none⟩ : LeafNode).InsertAt
                     (FindFirstGreaterOrEqual key (l.keys.drop (l.keys.length / 2)))
                     key value,
                   l.keys.getD (l.keys.length / 2) 0))
          ∧ ((⟨l.keys.drop (l.keys.length / 2), l.values.drop (l.keys.length / 2),
               none, none⟩ : LeafNode).Insert key value).2 = none) :=
  leaf_split_insert_aux l key value hfull hv

/-- A concrete full leaf for exercising the split path: keys and values
`0, 1, ..., 255`. -/
def fullLeaf256 : LeafNode :=
  ⟨(List.range 256).map Int.ofNat, (List.range 256).map Int.ofNat, none, none⟩

set_option maxRecDepth 4096 in
/-- Witness for `leaf_split_insert`: the full leaf `0..255` split by inserting
key 300. -/
theorem leaf_split_insert_witness :
    (fullLeaf256.IsFull = true ∧ fullLeaf256.values.length = fullLeaf256.keys.length)
    ∧ ((fullLeaf256.keys.drop (fullLeaf256.keys.length / 2)).length
          = fullLeaf256.keys.length - fullLeaf256.keys.length / 2
        ∧ (fullLeaf256.keys.take (fullLeaf256.keys.length / 2)).length
          = fullLeaf256.keys.length / 2) := by
  refine ⟨⟨by decide, by decide⟩, ?_⟩
  have h := leaf_split_insert fullLeaf256 300 3 (by decide) (by decide)
  exact ⟨h.1, h.2.1⟩

/-- C5: when a child of a full inner node (`slotused = leaf_slotmax = 256`)
at descent position `p` reports a split `(new_node, sep)`, the node splits at
`mid = slotused / 2`: keys `[mid+1..slotused)` and children
`[mid+1..slotused+1)` move to the new right inner node (`slotused - mid - 1`
keys), the original keeps `mid` keys, the middle key `keys[mid]` is promoted
to the caller and kept in neither half (the surviving separators are exactly
`keys` with index `mid` erased, before the pending insertion), and the
pending pair is inserted at `p` in the original node when `p ≤ mid`, else at
`p - (mid + 1)` in the new node. -/
theorem inner_split_promote (keys : List Int) (children : List Node)
    (p : Nat) (new_node : Node) (sep : Int)
    (hfull : InnerNode.IsFull keys.length = true) :
    (InnerNode.handleSplit keys children p new_node sep
      = if p ≤ keys.length / 2 then
          (InnerNode.InsertAt (keys.take (keys.length / 2))
             (children.take (keys.length / 2 + 1)) p sep new_node,
           some (keys.drop (keys.length / 2 + 1),
                 children.drop (keys.length / 2 + 1),
                 keys.getD (keys.length / 2) 0))
        else
          ((keys.take (keys.length / 2), children.take (keys.length / 2 + 1)),
           some ((InnerNode.InsertAt (keys.drop (keys.length / 2 + 1))
                    (children.drop (keys.length / 2 + 1))
                    (p - (keys.length / 2 + 1)) sep new_node).1,
                 (InnerNode.InsertAt (keys.drop (keys.length / 2 + 1))
                    (children.drop (keys.length / 2 + 1))
                    (p - (keys.length / 2 + 1)) sep new_node).2,
                 keys.getD (keys.length / 2) 0)))
    ∧ (keys.take (keys.length / 2)).length = keys.length / 2
    ∧ (keys.drop (keys.length / 2 + 1)).length = keys.length - (keys.length / 2 + 1)
    ∧ keys.take (keys.length / 2) ++ keys.drop (keys.length / 2 + 1)
        = keys.eraseIdx (keys.length / 2) := by
  have hlen : keys.length = 256 := by
    simpa [InnerNode.IsFull, leaf_slotmax] using hfull
  refine ⟨?_, by simp [hlen], by simp [hlen],
    (List.eraseIdx_eq_take_drop_succ keys (keys.length / 2)).symm⟩
  rw [InnerNode.handleSplit]
  simp only [hfull, if_true]

set_option maxRecDepth 4096 in
/-- Witness for `inner_split_promote`: a full inner node with separators
`0..255` and 257 leaf children, receiving a split at position 100. -/
theorem inner_split_promote_witness :
    InnerNode.IsFull ((List.range 256).map Int.ofNat).length = true
    ∧ ((List.range 256).map Int.ofNat).take
          (((List.range 256).map Int.ofNat).length / 2)
        ++ ((List.range 256).map Int.ofNat).drop
          (((List.range 256).map Int.ofNat).length / 2 + 1)
      = ((List.range 256).map Int.ofNat).eraseIdx
          (((List.range 256).map Int.ofNat).length / 2) := by
  refine ⟨by decide, ?_⟩
  exact (inner_split_promote ((List.range 256).map Int.ofNat)
    ((List.range 257).map Node.leafRef) 100 (Node.leafRef 300) 77 (by decide)).2.2.2

/-! ## List helper lemmas -/

/-- `insertIdx` as a take/cons/drop decomposition. -/
theorem insertIdx_eq_take_cons_drop {α : Type} (l : List α) (n : Nat) (a : α)
    (h : n ≤ l.length) :
    l.insertIdx n a = l.take n ++ a :: l.drop n := by
  induction l generalizing n with
  | nil => simp at h; simp [h]
  | cons x xs ih =>
    cases n with
    | zero => simp
    | succ n => simp [List.insertIdx_succ_cons, ih n (by simpa using h)]

theorem getD_take {α : Type} (l : List α) (m i : Nat) (d : α) (h : i < m) :
    (l.take m).getD i d = l.getD i d := by
  simp [List.getD_eq_getElem?_getD, List.getElem?_take, h]

theorem getD_drop {α : Type} (l : List α) (m i : Nat) (d : α) :
    (l.drop m).getD i d = l.getD (m + i) d := by
  simp [List.getD_eq_getElem?_getD, List.getElem?_drop]

theorem getD_cons_succ {α : Type} (a : α) (l : List α) (i : Nat) (d : α) :
    (a :: l).getD (i + 1) d = l.getD i d := rfl

theorem getD_mem_of_lt {α : Type} (l : List α) (i : Nat) (d : α) (h : i < l.length) :
    l.getD i d ∈ l := by
  rw [List.getD_eq_getElem?_getD, List.getElem?_eq_getElem h]
  exact List.getElem_mem h

/-- `flatMap` over `attach` is `flatMap`. -/
theorem flatMap_attach {α β : Type} (l : List α) (f : α → List β) :
    (l.attach.flatMap fun c => f c.1) = l.flatMap f := by
  induction l with
  | nil => rfl
  | cons a l ih => simp [List.attach_cons, List.flatMap_cons, List.flatMap_map, ih]

/-! ## Properties of the linear search -/

theorem ffge_le_length (key : Int) (ks : List Int) :
    FindFirstGreaterOrEqual key ks ≤ ks.length := by
  induction ks with
  | nil => simp [FindFirstGreaterOrEqual]
  | cons k ks ih =>
    simp only [FindFirstGreaterOrEqual]
    split
    · simp
    · simpa using ih

theorem ffge_lt (key : Int) (ks : List Int)
    (h : FindFirstGreaterOrEqual key ks < ks.length) :
    key < ks.getD (FindFirstGreaterOrEqual key ks) 0 := by
  induction ks with
  | nil => simp at h
  | cons k ks ih =>
    simp only [FindFirstGreaterOrEqual] at h ⊢
    split
    · simpa [List.getD]
    · next hk =>
      simp only [hk, if_false] at h ⊢
      rw [getD_cons_succ]
      exact ih (by simpa using h)

theorem ffge_before (key : Int) (ks : List Int) (j : Nat)
    (hj : j < FindFirstGreaterOrEqual key ks) :
    ks.getD j 0 ≤ key := by
  induction ks generalizing j with
  | nil => simp [FindFirstGreaterOrEqual] at hj
  | cons k ks ih =>
    simp only [FindFirstGreaterOrEqual] at hj
    split at hj
    · omega
    · next hk =>
      cases j with
      | zero => simpa [List.getD] using le_of_not_lt hk
      | succ j => rw [getD_cons_succ]; exact ih j (by omega)

theorem mem_insertIdx_ffge {x key : Int} {ks : List Int}
    (hx : x ∈ ks.insertIdx (FindFirstGreaterOrEqual key ks) key) :
    x = key ∨ x ∈ ks :=
  (List.mem_insertIdx (ffge_le_length key ks)).mp hx

theorem pairwise_insertIdx_ffge (key : Int) (ks : List Int)
    (h : ks.Pairwise (· ≤ ·)) :
    (ks.insertIdx (FindFirstGreaterOrEqual key ks) key).Pairwise (· ≤ ·) := by
  induction ks with
  | nil => simp [FindFirstGreaterOrEqual]
  | cons k ks ih =>
    rw [List.pairwise_cons] at h
    simp only [FindFirstGreaterOrEqual]
    split
    · next hk =>
      simp only [List.insertIdx_zero]
      exact List.pairwise_cons.mpr ⟨fun b hb => by
        rcases List.mem_cons.mp hb with rfl | hb
        · exact le_of_lt hk
        · exact le_trans (le_of_lt hk) (h.1 b hb),
        List.pairwise_cons.mpr h⟩
    · next hk =>
      simp only [List.insertIdx_succ_cons]
      exact List.pairwise_cons.mpr ⟨fun b hb => by
        rcases mem_insertIdx_ffge hb with rfl | hb
        · exact le_of_not_lt hk
        · exact h.1 b hb,
        ih h.2⟩

/-- `zipWith` commutes with simultaneous `insertIdx` at the same position. -/
theorem zipWith_insertIdx {α β γ : Type} (f : α → β → γ) (ks : List α)
    (vs : List β) (p : Nat) (k : α) (v : β)
    (hlen : vs.length = ks.length) (hp : p ≤ ks.length) :
    List.zipWith f (ks.insertIdx p k) (vs.insertIdx p v)
      = (List.zipWith f ks vs).insertIdx p (f k v) := by
  induction p generalizing ks vs with
  | zero => simp [List.insertIdx_zero]
  | succ p ih =>
    cases ks with
    | nil => simp at hp
    | cons a ks =>
      cases vs with
      | nil => simp at hlen
      | cons b vs =>
        simp only [List.insertIdx_succ_cons, List.zipWith_cons_cons]
        rw [ih ks vs (by simpa using hlen) (by simpa using hp)]

/-! ## Well-formedness of reachable trees

The invariant maintained by `Insert`, carrying for each subtree an optional
inclusive lower bound and an optional inclusive upper bound on every key it
stores (duplicates make both bounds inclusive: after a split, keys equal to
the separator may sit on either side), plus the uniform leaf depth `h`. -/

/-- Every key of `none` is unbounded; `some a` bounds from below. -/
def loOk (lo : Option Int) (k : Int) : Prop := ∀ a, lo = some a → a ≤ k

/-- Every key of `none` is unbounded; `some b` bounds from above. -/
def hiOk (hi : Option Int) (k : Int) : Prop := ∀ b, hi = some b → k ≤ b

/-- Strict upper bound, satisfied by the key being inserted on descent. -/
def hiStrict (hi : Option Int) (k : Int) : Prop := ∀ b, hi = some b → k < b

/-- Lower bound of the key range of child `p` of an inner node. -/
def sepLo (lo : Option Int) (keys : List Int) : Nat → Option Int
  | 0 => lo
  | p + 1 => some (keys.getD p 0)

/-- Upper bound of the key range of child `p` of an inner node. -/
def sepHi (hi : Option Int) (keys : List Int) (p : Nat) : Option Int :=
  if p < keys.length then some (keys.getD p 0) else hi

theorem sepLo_cons (lo : Option Int) (k : Int) (ks : List Int) (q : Nat) :
    sepLo lo (k :: ks) (q + 1) = sepLo (some k) ks q := by
  cases q <;> simp [sepLo, getD_cons_succ]

theorem sepHi_cons (hi : Option Int) (k : Int) (ks : List Int) (q : Nat) :
    sepHi hi (k :: ks) (q + 1) = sepHi hi ks q := by
  simp only [sepHi, List.length_cons, getD_cons_succ, Nat.add_lt_add_iff_right]

/-- A leaf reachable at bounds `(lo, hi)`: a valid pointer to a non-empty,
sorted, in-capacity record whose keys lie within the bounds.  (Sibling
fields are governed separately by the chain invariant.) -/
def leafWf (heap : Heap) (lo hi : Option Int) (id : Nat) : Prop :=
  id < heap.length
  ∧ (hget heap id).keys ≠ []
  ∧ (hget heap id).keys.length ≤ leaf_slotmax
  ∧ (hget heap id).values.length = (hget heap id).keys.length
  ∧ (hget heap id).keys.Pairwise (· ≤ ·)
  ∧ (∀ k ∈ (hget heap id).keys, loOk lo k)
  ∧ (∀ k ∈ (hget heap id).keys, hiOk hi k)

mutual
/-- Well-formed subtree at bounds `(lo, hi)` and leaf depth `h`. -/
def NodeWf (heap : Heap) : Node → Option Int → Option Int → Nat → Prop
  | .leafRef id, lo, hi, h => h = 0 ∧ leafWf heap lo hi id
  | .inner keys children, lo, hi, h =>
    0 < h ∧ keys ≠ [] ∧ keys.length ≤ leaf_slotmax
      ∧ ChildrenWf heap lo hi (h - 1) keys children
termination_by n => sizeOf n

/-- The children of an inner node with separators `keys`, laid out as nested
intervals: child `i` is bounded above by `keys[i]` (inclusive) and below by
`keys[i-1]` (inclusive); the outermost bounds come from the parent. -/
def ChildrenWf (heap : Heap) : Option Int → Option Int → Nat → List Int → List Node → Prop
  | lo, hi, h, [], [c] => NodeWf heap c lo hi h
  | lo, hi, h, k :: ks, c :: cs =>
    NodeWf heap c lo (some k) h ∧ ChildrenWf heap (some k) hi h ks cs
  | _, _, _, _, _ => False
termination_by _ _ _ _ cs => sizeOf cs
end

/-- Strong induction over nodes by size. -/
theorem Node.strongInd {P : Node → Prop}
    (ih : ∀ n, (∀ c : Node, sizeOf c < sizeOf n → P c) → P n) : ∀ n, P n := by
  have H : ∀ N (n : Node), sizeOf n < N → P n := by
    intro N
    induction N with
    | zero => intro n h; omega
    | succ N ihN => intro n h; exact ih n fun c hc => ihN c (by omega)
  exact fun n => H (sizeOf n + 1) n (by omega)

theorem sizeOf_child_lt {keys : List Int} {children : List Node} {c : Node}
    (hc : c ∈ children) : sizeOf c < sizeOf (Node.inner keys children) := by
  have := List.sizeOf_lt_of_mem hc
  simp only [Node.inner.sizeOf_spec]
  omega

/-! ## Structure of `ChildrenWf` -/

theorem cw_nil_inv {heap : Heap} {lo hi : Option Int} {h : Nat} {C : List Node}
    (hc : ChildrenWf heap lo hi h [] C) :
    ∃ c, C = [c] ∧ NodeWf heap c lo hi h := by
  match C with
  | [] => exact absurd hc (by simp [ChildrenWf])
  | [c] => exact ⟨c, rfl, by simpa [ChildrenWf] using hc⟩
  | c :: c' :: cs => exact absurd hc (by simp [ChildrenWf])

theorem cw_cons_inv {heap : Heap} {lo hi : Option Int} {h : Nat} {k : Int}
    {ks : List Int} {C : List Node}
    (hc : ChildrenWf heap lo hi h (k :: ks) C) :
    ∃ c cs, C = c :: cs ∧ NodeWf heap c lo (some k) h
      ∧ ChildrenWf heap (some k) hi h ks cs := by
  match C with
  | [] => exact absurd hc (by simp [ChildrenWf])
  | c :: cs =>
    rw [ChildrenWf] at hc
    exact ⟨c, cs, rfl, hc.1, hc.2⟩

theorem cw_nil_mk {heap : Heap} {lo hi : Option Int} {h : Nat} {c : Node}
    (hn : NodeWf heap c lo hi h) : ChildrenWf heap lo hi h [] [c] := by
  simpa [ChildrenWf] using hn

theorem cw_cons_mk {heap : Heap} {lo hi : Option Int} {h : Nat} {k : Int}
    {ks : List Int} {c : Node} {cs : List Node}
    (hn : NodeWf heap c lo (some k) h)
    (hc : ChildrenWf heap (some k) hi h ks cs) :
    ChildrenWf heap lo hi h (k :: ks) (c :: cs) := by
  rw [ChildrenWf]
  exact ⟨hn, hc⟩

theorem cw_length {heap : Heap} {lo hi : Option Int} {h : Nat} {K : List Int}
    {C : List Node} (hc : ChildrenWf heap lo hi h K C) :
    C.length = K.length + 1 := by
  induction K generalizing lo C with
  | nil => obtain ⟨c, rfl, -⟩ := cw_nil_inv hc; rfl
  | cons k ks ih =>
    obtain ⟨c, cs, rfl, -, hcs⟩ := cw_cons_inv hc
    simpa using ih hcs

theorem cw_child {heap : Heap} {lo hi : Option Int} {h : Nat} {K : List Int}
    {C : List Node} (hc : ChildrenWf heap lo hi h K C) :
    ∀ p ≤ K.length, ∀ {c : Node}, C[p]? = some c →
      NodeWf heap c (sepLo lo K p) (sepHi hi K p) h := by
  induction K generalizing lo C with
  | nil =>
    obtain ⟨c, rfl, hn⟩ := cw_nil_inv hc
    intro p hp c' hc'
    simp only [List.length_nil, Nat.le_zero] at hp
    subst hp
    simp only [List.getElem?_cons_zero, Option.some_inj] at hc'
    subst hc'
    simpa [sepLo, sepHi] using hn
  | cons k ks ih =>
    obtain ⟨c, cs, rfl, hn, hcs⟩ := cw_cons_inv hc
    intro p hp c' hc'
    cases p with
    | zero =>
      simp only [List.getElem?_cons_zero, Option.some_inj] at hc'
      subst hc'
      simpa [sepLo, sepHi, List.getD] using hn
    | succ p =>
      rw [sepLo_cons, sepHi_cons]
      exact ih hcs p (by simpa using hp) (by simpa using hc')

theorem cw_mem {heap : Heap} {lo hi : Option Int} {h : Nat} {K : List Int}
    {C : List Node} (hc : ChildrenWf heap lo hi h K C) :
    ∀ c ∈ C, ∃ lo' hi', NodeWf heap c lo' hi' h := by
  induction K generalizing lo C with
  | nil =>
    obtain ⟨c, rfl, hn⟩ := cw_nil_inv hc
    intro c' hc'
    simp only [List.mem_singleton] at hc'
    exact hc' ▸ ⟨lo, hi, hn⟩
  | cons k ks ih =>
    obtain ⟨c, cs, rfl, hn, hcs⟩ := cw_cons_inv hc
    intro c' hc'
    rcases List.mem_cons.mp hc' with rfl | hc'
    · exact ⟨lo, some k, hn⟩
    · exact ih hcs c' hc'

/-! ## Consequences of well-formedness -/

theorem cw_boundsWitness_aux {heap : Heap} {h : Nat} :
    ∀ (K : List Int) (C : List Node) (lo hi : Option Int),
      (∀ c ∈ C, ∀ lo' hi' h', NodeWf heap c lo' hi' h' → ∃ k, loOk lo' k ∧ hiOk hi' k) →
      ChildrenWf heap lo hi h K C → ∃ k, loOk lo k ∧ hiOk hi k := by
  intro K
  induction K with
  | nil =>
    intro C lo hi hmem hc
    obtain ⟨c, rfl, hn⟩ := cw_nil_inv hc
    exact hmem c (by simp) _ _ _ hn
  | cons k ks ih =>
    intro C lo hi hmem hc
    obtain ⟨c, cs, rfl, hn, hcs⟩ := cw_cons_inv hc
    obtain ⟨k0, hk0lo, hk0hi⟩ := hmem c (by simp) _ _ _ hn
    obtain ⟨k1, hk1lo, hk1hi⟩ := ih cs (some k) hi
      (fun c' hc' => hmem c' (by simp [hc'])) hcs
    refine ⟨k0, hk0lo, fun b hb => ?_⟩
    have h1 : k0 ≤ k := hk0hi k rfl
    have h2 : k ≤ k1 := hk1lo k rfl
    have h3 : k1 ≤ b := hk1hi b hb
    omega

theorem cw_keys_sorted_bounded {heap : Heap} {h : Nat} :
    ∀ (K : List Int) (C : List Node) (lo hi : Option Int),
      (∀ c ∈ C, ∀ lo' hi' h', NodeWf heap c lo' hi' h' → ∃ k, loOk lo' k ∧ hiOk hi' k) →
      ChildrenWf heap lo hi h K C →
      K.Pairwise (· ≤ ·) ∧ ∀ k ∈ K, loOk lo k ∧ hiOk hi k := by
  intro K
  induction K with
  | nil => intro C lo hi _ _; simp
  | cons k ks ih =>
    intro C lo hi hmem hc
    obtain ⟨c, cs, rfl, hn, hcs⟩ := cw_cons_inv hc
    obtain ⟨k0, hk0lo, hk0hi⟩ := hmem c (by simp) _ _ _ hn
    obtain ⟨hkssorted, hksbnd⟩ := ih cs (some k) hi
      (fun c' hc' => hmem c' (by simp [hc'])) hcs
    obtain ⟨kw, hkwlo, hkwhi⟩ := cw_boundsWitness_aux ks cs (some k) hi
      (fun c' hc' => hmem c' (by simp [hc'])) hcs
    have hk0k : k0 ≤ k := hk0hi k rfl
    have hkkw : k ≤ kw := hkwlo k rfl
    refine ⟨List.pairwise_cons.mpr ⟨fun b hb => (hksbnd b hb).1 k rfl, hkssorted⟩,
      fun k' hk' => ?_⟩
    rcases List.mem_cons.mp hk' with rfl | hk'
    · exact ⟨fun a ha => le_trans (hk0lo a ha) hk0k,
             fun b hb => le_trans hkkw (hkwhi b hb)⟩
    · obtain ⟨hl, hr⟩ := hksbnd k' hk'
      refine ⟨fun a ha => ?_, hr⟩
      have : k ≤ k' := hl k rfl
      have := hk0lo a ha
      omega

theorem nodeWf_boundsWitness :
    ∀ (n : Node) (heap : Heap) (lo hi : Option Int) (h : Nat),
      NodeWf heap n lo hi h → ∃ k, loOk lo k ∧ hiOk hi k := by
  refine Node.strongInd ?_
  intro n ih heap lo hi h hw
  match n with
  | .leafRef id =>
    rw [NodeWf] at hw
    obtain ⟨-, hid, hne, hcap, hvlen, hsorted, hlo, hhi⟩ := hw
    have hpos : 0 < (hget heap id).keys.length := List.length_pos.mpr hne
    have hk := getD_mem_of_lt (hget heap id).keys 0 0 hpos
    exact ⟨_, hlo _ hk, hhi _ hk⟩
  | .inner K C =>
    rw [NodeWf] at hw
    exact cw_boundsWitness_aux K C lo hi
      (fun c hc lo' hi' h' hw' => ih c (sizeOf_child_lt hc) heap lo' hi' h' hw')
      hw.2.2.2

/-- Sortedness and bounds of the separator keys of a well-formed inner node. -/
theorem nodeWf_inner_keys {heap : Heap} {K : List Int} {C : List Node}
    {lo hi : Option Int} {h : Nat}
    (hw : NodeWf heap (.inner K C) lo hi h) :
    K.Pairwise (· ≤ ·) ∧ ∀ k ∈ K, loOk lo k ∧ hiOk hi k := by
  rw [NodeWf] at hw
  exact cw_keys_sorted_bounded K C lo hi
    (fun c hc lo' hi' h' hw' => nodeWf_boundsWitness c heap lo' hi' h' hw')
    hw.2.2.2

/-! ## Leaf sequences and contents -/

theorem leafIds_leaf (id : Nat) : (Node.leafRef id).leafIds = [id] := by
  simp [Node.leafIds]

theorem leafIds_inner (K : List Int) (C : List Node) :
    (Node.inner K C).leafIds = C.flatMap Node.leafIds := by
  rw [Node.leafIds]
  exact flatMap_attach _ _

theorem leafDepths_leaf (id : Nat) : (Node.leafRef id).leafDepths = [0] := by
  simp [Node.leafDepths]

theorem leafDepths_inner (K : List Int) (C : List Node) :
    (Node.inner K C).leafDepths = (C.flatMap Node.leafDepths).map (· + 1) := by
  rw [Node.leafDepths, flatMap_attach]

theorem contents_leaf (heap : Heap) (id : Nat) :
    (Node.leafRef id).contents heap = contentsOf heap id := by
  simp [Node.contents, leafIds_leaf]

theorem contents_inner (heap : Heap) (K : List Int) (C : List Node) :
    (Node.inner K C).contents heap = C.flatMap (Node.contents heap) := by
  rw [Node.contents, leafIds_inner, List.flatMap_assoc]
  rfl

theorem map_key_zipWith (ks vs : List Int) (h : vs.length = ks.length) :
    (List.zipWith KeyValue.mk ks vs).map KeyValue.key = ks := by
  induction ks generalizing vs with
  | nil => simp
  | cons a ks ih =>
    cases vs with
    | nil => simp at h
    | cons b vs => simpa using ih vs (by simpa using h)

theorem key_mem_of_mem_zipWith {ks vs : List Int} {kv : KeyValue}
    (h : kv ∈ List.zipWith KeyValue.mk ks vs) : kv.key ∈ ks := by
  induction ks generalizing vs with
  | nil => simp at h
  | cons a ks ih =>
    cases vs with
    | nil => simp at h
    | cons b vs =>
      rcases List.mem_cons.mp h with rfl | h
      · simp
      · exact List.mem_cons.mpr (Or.inr (ih h))

theorem cw_contents_aux {heap : Heap} {h : Nat} :
    ∀ (K : List Int) (C : List Node) (lo hi : Option Int),
      (∀ c ∈ C, ∀ lo' hi' h', NodeWf heap c lo' hi' h' →
        ((c.contents heap).map KeyValue.key).Pairwise (· ≤ ·)
          ∧ ∀ kv ∈ c.contents heap, loOk lo' kv.key ∧ hiOk hi' kv.key) →
      ChildrenWf heap lo hi h K C →
      ((C.flatMap (Node.contents heap)).map KeyValue.key).Pairwise (· ≤ ·)
        ∧ ∀ kv ∈ C.flatMap (Node.contents heap), loOk lo kv.key ∧ hiOk hi kv.key := by
  intro K
  induction K with
  | nil =>
    intro C lo hi hmem hc
    obtain ⟨c, rfl, hn⟩ := cw_nil_inv hc
    simpa using hmem c (by simp) _ _ _ hn
  | cons k ks ih =>
    intro C lo hi hmem hc
    obtain ⟨c, cs, rfl, hn, hcs⟩ := cw_cons_inv hc
    obtain ⟨hcsort, hcbnd⟩ := hmem c (by simp) _ _ _ hn
    obtain ⟨hrsort, hrbnd⟩ := ih cs (some k) hi
      (fun c' hc' => hmem c' (by simp [hc'])) hcs
    rw [List.flatMap_cons, List.map_append]
    constructor
    · rw [List.pairwise_append]
      refine ⟨hcsort, hrsort, ?_⟩
      intro a ha b hb
      simp only [List.mem_map] at ha hb
      obtain ⟨kva, hkva, rfl⟩ := ha
      obtain ⟨kvb, hkvb, rfl⟩ := hb
      have h1 : kva.key ≤ k := (hcbnd kva hkva).2 k rfl
      have h2 : k ≤ kvb.key := (hrbnd kvb hkvb).1 k rfl
      omega
    · intro kv hkv
      rcases List.mem_append.mp hkv with hkv | hkv
      · obtain ⟨hl, hr⟩ := hcbnd kv hkv
        exact ⟨hl, fun b hb => by
          have h1 : kv.key ≤ k := hr k rfl
          -- k is itself bounded above by hi via the right side
          obtain ⟨kw, hkwlo, hkwhi⟩ := cw_boundsWitness_aux ks cs (some k) hi
            (fun c' hc' lo' hi' h' hw' => nodeWf_boundsWitness c' heap lo' hi' h' hw') hcs
          have h2 : k ≤ kw := hkwlo k rfl
          have h3 : kw ≤ b := hkwhi b hb
          omega⟩
      · obtain ⟨hl, hr⟩ := hrbnd kv hkv
        refine ⟨fun a ha => ?_, hr⟩
        have h2 : k ≤ kv.key := hl k rfl
        -- a bounds the left child from below, hence a ≤ k
        obtain ⟨kw, hkwlo, hkwhi⟩ := nodeWf_boundsWitness c heap lo (some k) _ hn
        have h3 := hkwlo a ha
        have h4 : kw ≤ k := hkwhi k rfl
        omega

/-- The full in-order contents of a well-formed subtree are sorted by key and
lie within the subtree's bounds. -/
theorem nodeWf_contents_sorted :
    ∀ (n : Node) (heap : Heap) (lo hi : Option Int) (h : Nat),
      NodeWf heap n lo hi h →
      ((n.contents heap).map KeyValue.key).Pairwise (· ≤ ·)
        ∧ ∀ kv ∈ n.contents heap, loOk lo kv.key ∧ hiOk hi kv.key := by
  refine Node.strongInd ?_
  intro n ih heap lo hi h hw
  match n with
  | .leafRef id =>
    rw [NodeWf] at hw
    obtain ⟨-, hid, hne, hcap, hvlen, hsorted, hlo, hhi⟩ := hw
    rw [contents_leaf]
    unfold contentsOf
    rw [map_key_zipWith _ _ hvlen]
    exact ⟨hsorted, fun kv hkv =>
      ⟨hlo _ (key_mem_of_mem_zipWith hkv), hhi _ (key_mem_of_mem_zipWith hkv)⟩⟩
  | .inner K C =>
    rw [NodeWf] at hw
    rw [contents_inner]
    exact cw_contents_aux K C lo hi
      (fun c hc lo' hi' h' hw' => ih c (sizeOf_child_lt hc) heap lo' hi' h' hw')
      hw.2.2.2

/-- All leaves of a well-formed subtree sit at depth `h`. -/
theorem nodeWf_depths :
    ∀ (n : Node) (heap : Heap) (lo hi : Option Int) (h : Nat),
      NodeWf heap n lo hi h → ∀ d ∈ n.leafDepths, d = h := by
  refine Node.strongInd ?_
  intro n ih heap lo hi h hw
  match n with
  | .leafRef id =>
    rw [NodeWf] at hw
    rw [leafDepths_leaf]
    simp [hw.1]
  | .inner K C =>
    rw [NodeWf] at hw
    obtain ⟨hpos, -, -, hcw⟩ := hw
    rw [leafDepths_inner]
    intro d hd
    simp only [List.mem_map, List.mem_flatMap] at hd
    obtain ⟨d', ⟨c, hcC, hd'⟩, rfl⟩ := hd
    obtain ⟨lo', hi', hwc⟩ := cw_mem hcw c hcC
    have := ih c (sizeOf_child_lt hcC) heap lo' hi' (h - 1) hwc d' hd'
    omega

/-- Valid pointers, non-empty records, and aligned value arrays at every leaf
of a well-formed subtree. -/
theorem nodeWf_leaf_facts :
    ∀ (n : Node) (heap : Heap) (lo hi : Option Int) (h : Nat),
      NodeWf heap n lo hi h → ∀ id ∈ n.leafIds,
        id < heap.length ∧ (hget heap id).keys ≠ []
          ∧ (hget heap id).values.length = (hget heap id).keys.length := by
  refine Node.strongInd ?_
  intro n ih heap lo hi h hw
  match n with
  | .leafRef i =>
    rw [NodeWf] at hw
    obtain ⟨-, hid, hne, -, hvlen, -⟩ := hw
    rw [leafIds_leaf]
    intro id hid'
    simp only [List.mem_singleton] at hid'
    subst hid'
    exact ⟨hid, hne, hvlen⟩
  | .inner K C =>
    rw [NodeWf] at hw
    rw [leafIds_inner]
    intro id hid
    obtain ⟨c, hcC, hidc⟩ := List.mem_flatMap.mp hid
    obtain ⟨lo', hi', hwc⟩ := cw_mem hw.2.2.2 c hcC
    exact ih c (sizeOf_child_lt hcC) heap lo' hi' _ hwc id hidc

/-- The leaf sequence of a well-formed subtree is non-empty. -/
theorem nodeWf_leafIds_ne_nil :
    ∀ (n : Node) (heap : Heap) (lo hi : Option Int) (h : Nat),
      NodeWf heap n lo hi h → n.leafIds ≠ [] := by
  refine Node.strongInd ?_
  intro n ih heap lo hi h hw
  match n with
  | .leafRef i => simp [leafIds_leaf]
  | .inner K C =>
    rw [NodeWf] at hw
    obtain ⟨-, hne, -, hcw⟩ := hw
    have hC : ∃ c cs, C = c :: cs ∧ ∃ lo' hi', NodeWf heap c lo' hi' (h - 1) := by
      match K, hne with
      | k :: ks, _ =>
        obtain ⟨c, cs, rfl, hn, -⟩ := cw_cons_inv hcw
        exact ⟨c, cs, rfl, lo, some k, hn⟩
    obtain ⟨c, cs, rfl, lo', hi', hwc⟩ := hC
    rw [leafIds_inner, List.flatMap_cons]
    have := ih c (sizeOf_child_lt (by simp)) heap lo' hi' (h - 1) hwc
    intro hcontra
    exact this (List.append_eq_nil.mp hcontra).1

/-- `GetFirstLeaf` lands on the first leaf of the in-order sequence. -/
theorem nodeWf_firstLeaf :
    ∀ (n : Node) (heap : Heap) (lo hi : Option Int) (h : Nat),
      NodeWf heap n lo hi h → n.firstLeaf = n.leafIds.head? := by
  refine Node.strongInd ?_
  intro n ih heap lo hi h hw
  match n with
  | .leafRef i => simp [Node.firstLeaf, leafIds_leaf]
  | .inner K C =>
    rw [NodeWf] at hw
    obtain ⟨-, hne, -, hcw⟩ := hw
    have hC : ∃ c cs, C = c :: cs ∧ ∃ lo' hi', NodeWf heap c lo' hi' (h - 1) := by
      match K, hne with
      | k :: ks, _ =>
        obtain ⟨c, cs, rfl, hn, -⟩ := cw_cons_inv hcw
        exact ⟨c, cs, rfl, lo, some k, hn⟩
    obtain ⟨c, cs, rfl, lo', hi', hwc⟩ := hC
    rw [leafIds_inner, List.flatMap_cons]
    have h1 : c.firstLeaf = c.leafIds.head? :=
      ih c (sizeOf_child_lt (by simp)) heap lo' hi' (h - 1) hwc
    have h2 : c.leafIds ≠ [] := nodeWf_leafIds_ne_nil c heap lo' hi' (h - 1) hwc
    rw [show (Node.inner K (c :: cs)).firstLeaf = c.firstLeaf from by
      simp [Node.firstLeaf], h1]
    match hL : c.leafIds, h2 with
    | x :: xs, _ => simp

/-! ## Success of the integrity checker on well-formed trees -/

theorem sortedPairsCheck_of_pairwise :
    ∀ {ks : List Int}, ks.Pairwise (· ≤ ·) → sortedPairsCheck ks = true
  | [], _ => rfl
  | [_], _ => rfl
  | a :: b :: rest, h => by
    have ha : a ≤ b := (List.pairwise_cons.mp h).1 b (by simp)
    have ht := (List.pairwise_cons.mp h).2
    rw [sortedPairsCheck]
    simp only [Bool.and_eq_true, Bool.not_eq_true']
    exact ⟨by simpa using ha, sortedPairsCheck_of_pairwise ht⟩

theorem childBounds_length (lo hi : Option Int) (K : List Int) :
    (childBounds lo hi K).length = K.length + 1 := by
  induction K generalizing lo with
  | nil => rfl
  | cons k ks ih => simpa [childBounds] using ih (some k)

theorem childBounds_getElem (lo hi : Option Int) (K : List Int) :
    ∀ q (hq : q < (childBounds lo hi K).length),
      (childBounds lo hi K)[q] = (sepLo lo K q, sepHi hi K q) := by
  induction K generalizing lo with
  | nil =>
    intro q hq
    simp only [childBounds_length, List.length_nil] at hq
    match q, hq with
    | 0, _ => simp [childBounds, sepLo, sepHi]
  | cons k ks ih =>
    intro q hq
    cases q with
    | zero => simp [childBounds, sepLo, sepHi, List.getD]
    | succ q =>
      rw [sepLo_cons, sepHi_cons]
      have hq' : q < (childBounds (some k) hi ks).length := by
        simpa [childBounds_length] using by
          simpa [childBounds_length] using hq
      simpa [childBounds] using ih (some k) q hq'

/-- On any well-formed subtree, `CheckIntegrity` succeeds with the subtree's
bounds. -/
theorem nodeWf_checkIntegrity :
    ∀ (n : Node) (heap : Heap) (lo hi : Option Int) (h : Nat),
      NodeWf heap n lo hi h → n.CheckIntegrityB heap lo hi = true := by
  refine Node.strongInd ?_
  intro n ih heap lo hi h hw
  match n with
  | .leafRef id =>
    rw [NodeWf] at hw
    obtain ⟨-, hid, hne, hcap, hvlen, hsorted, hlo, hhi⟩ := hw
    have hpos : 0 < (hget heap id).keys.length := List.length_pos.mpr hne
    rw [Node.CheckIntegrityB.eq_def]
    unfold LeafNode.CheckIntegrityB
    simp only [Bool.and_eq_true]
    refine ⟨⟨sortedPairsCheck_of_pairwise hsorted, ?_⟩, ?_⟩
    · match hL : lo with
      | none => rfl
      | some lb =>
        have := hlo _ (getD_mem_of_lt (hget heap id).keys 0 0 hpos) lb rfl
        simpa using this
    · match hH : hi with
      | none => rfl
      | some ub =>
        have := hhi _ (getD_mem_of_lt (hget heap id).keys
          ((hget heap id).keys.length - 1) 0 (by omega)) ub rfl
        simpa using this
  | .inner K C =>
    have hkeys := nodeWf_inner_keys hw
    rw [NodeWf] at hw
    obtain ⟨hpos, hne, hcap, hcw⟩ := hw
    have hknpos : 0 < K.length := List.length_pos.mpr hne
    have hlen := cw_length hcw
    rw [Node.CheckIntegrityB.eq_def]
    simp only [Bool.and_eq_true, decide_eq_true_eq]
    refine ⟨⟨⟨⟨hlen, sortedPairsCheck_of_pairwise hkeys.1⟩, ?_⟩, ?_⟩, ?_⟩
    · match hL : lo with
      | none => rfl
      | some lb =>
        have := (hkeys.2 _ (getD_mem_of_lt K 0 0 hknpos)).1 lb rfl
        simpa using this
    · match hH : hi with
      | none => rfl
      | some ub =>
        have := (hkeys.2 _ (getD_mem_of_lt K (K.length - 1) 0 (by omega))).2 ub rfl
        simpa using this
    · rw [List.all_eq_true]
      rintro ⟨⟨c, b⟩, hmem⟩ -
      simp only []
      obtain ⟨q, hq, hzip⟩ := List.mem_iff_getElem.mp hmem
      rw [List.getElem_zip] at hzip
      have hqK : q ≤ K.length := by
        have := hq
        simp only [List.length_zip, childBounds_length, hlen] at this
        omega
      have hqB : q < (childBounds lo hi K).length := by
        rw [childBounds_length]; omega
      have hqC : q < C.length := by omega
      have hcq : C[q]? = some c := by
        rw [List.getElem?_eq_some_iff]
        exact ⟨hqC, by rw [show C[q] = c from congrArg Prod.fst hzip]⟩
      have hb : b = (sepLo lo K q, sepHi hi K q) := by
        rw [show b = (childBounds lo hi K)[q] from (congrArg Prod.snd hzip).symm]
        exact childBounds_getElem lo hi K q hqB
      have hwc := cw_child hcw q hqK hcq
      have hcmem : c ∈ C := by
        rw [List.getElem?_eq_some_iff] at hcq
        obtain ⟨h1, h2⟩ := hcq
        exact h2 ▸ List.getElem_mem h1
      subst hb
      exact ih c (sizeOf_child_lt hcmem) heap _ _ (h - 1) hwc

/-! ## Heap access lemmas -/

theorem hget_set_self {heap : Heap} {id : Nat} (l : LeafNode) (h : id < heap.length) :
    hget (heap.set id l) id = l := by
  simp [hget, List.getD_eq_getElem?_getD, List.getElem?_set_self h]

theorem hget_set_ne {heap : Heap} {id j : Nat} (l : LeafNode) (h : id ≠ j) :
    hget (heap.set id l) j = hget heap j := by
  simp [hget, List.getD_eq_getElem?_getD, List.getElem?_set_ne h]

theorem hget_append_lt {heap : Heap} {j : Nat} (x : LeafNode) (h : j < heap.length) :
    hget (heap ++ [x]) j = hget heap j := by
  unfold hget
  exact List.getD_append _ _ _ _ h

theorem hget_append_self {heap : Heap} (x : LeafNode) :
    hget (heap ++ [x]) heap.length = x := by
  simp [hget, List.getD_append_right _ _ _ _ (le_refl _)]

/-! ## Frame lemmas: well-formedness and contents only read keys and values -/

theorem leafWf_frame {heap heap' : Heap} {lo hi : Option Int} {id : Nat}
    (hlen : heap.length ≤ heap'.length)
    (hk : (hget heap' id).keys = (hget heap id).keys)
    (hv : (hget heap' id).values = (hget heap id).values)
    (hw : leafWf heap lo hi id) : leafWf heap' lo hi id := by
  unfold leafWf at hw ⊢
  rw [hk, hv]
  exact ⟨by omega, hw.2⟩

theorem cw_frame_aux {heap heap' : Heap} {h : Nat} :
    ∀ (K : List Int) (C : List Node) (lo hi : Option Int),
      (∀ c ∈ C, ∀ lo' hi', NodeWf heap c lo' hi' h → NodeWf heap' c lo' hi' h) →
      ChildrenWf heap lo hi h K C → ChildrenWf heap' lo hi h K C := by
  intro K
  induction K with
  | nil =>
    intro C lo hi hmem hc
    obtain ⟨c, rfl, hn⟩ := cw_nil_inv hc
    exact cw_nil_mk (hmem c (by simp) _ _ hn)
  | cons k ks ih =>
    intro C lo hi hmem hc
    obtain ⟨c, cs, rfl, hn, hcs⟩ := cw_cons_inv hc
    exact cw_cons_mk (hmem c (by simp) _ _ hn)
      (ih cs (some k) hi (fun c' hc' => hmem c' (by simp [hc'])) hcs)

/-- Well-formedness only looks at the key/value arrays of the subtree's own
leaves; any heap change elsewhere (including sibling-pointer patches and
fresh allocations) preserves it. -/
theorem nodeWf_frame :
    ∀ (n : Node) (heap heap' : Heap) (lo hi : Option Int) (h : Nat),
      heap.length ≤ heap'.length →
      (∀ id ∈ n.leafIds, (hget heap' id).keys = (hget heap id).keys
        ∧ (hget heap' id).values = (hget heap id).values) →
      NodeWf heap n lo hi h → NodeWf heap' n lo hi h := by
  refine Node.strongInd ?_
  intro n ih heap heap' lo hi h hlen hsame hw
  match n with
  | .leafRef id =>
    rw [NodeWf] at hw ⊢
    obtain ⟨hk, hv⟩ := hsame id (by simp [leafIds_leaf])
    exact ⟨hw.1, leafWf_frame hlen hk hv hw.2⟩
  | .inner K C =>
    rw [NodeWf] at hw ⊢
    refine ⟨hw.1, hw.2.1, hw.2.2.1, ?_⟩
    refine cw_frame_aux K C lo hi ?_ hw.2.2.2
    intro c hc lo' hi' hw'
    refine ih c (sizeOf_child_lt hc) heap heap' lo' hi' _ hlen ?_ hw'
    intro id hid
    exact hsame id (by rw [leafIds_inner]; exact List.mem_flatMap.mpr ⟨c, hc, hid⟩)

theorem flatMap_congr_mem {α β : Type} {l : List α} {f g : α → List β}
    (h : ∀ x ∈ l, f x = g x) : l.flatMap f = l.flatMap g := by
  induction l with
  | nil => rfl
  | cons a l ih =>
    rw [List.flatMap_cons, List.flatMap_cons, h a (by simp),
      ih fun x hx => h x (by simp [hx])]

theorem contents_frame {n : Node} {heap heap' : Heap}
    (hsame : ∀ id ∈ n.leafIds, (hget heap' id).keys = (hget heap id).keys
      ∧ (hget heap' id).values = (hget heap id).values) :
    n.contents heap' = n.contents heap := by
  unfold Node.contents
  refine flatMap_congr_mem fun id hid => ?_
  unfold contentsOf
  rw [(hsame id hid).1, (hsame id hid).2]

/-! ## Rebuilding `ChildrenWf` after descent -/

theorem cw_set {heap : Heap} {h : Nat} :
    ∀ (p : Nat) (K : List Int) (C : List Node) (lo hi : Option Int) (c1 : Node),
      ChildrenWf heap lo hi h K C → p ≤ K.length →
      NodeWf heap c1 (sepLo lo K p) (sepHi hi K p) h →
      ChildrenWf heap lo hi h K (C.set p c1) := by
  intro p
  induction p with
  | zero =>
    intro K C lo hi c1 hc hp hw1
    match K with
    | [] =>
      obtain ⟨c, rfl, hn⟩ := cw_nil_inv hc
      exact cw_nil_mk (by simpa [sepLo, sepHi] using hw1)
    | k :: ks =>
      obtain ⟨c, cs, rfl, hn, hcs⟩ := cw_cons_inv hc
      exact cw_cons_mk (by simpa [sepLo, sepHi, List.getD] using hw1) hcs
  | succ p ih =>
    intro K C lo hi c1 hc hp hw1
    match K with
    | [] => simp at hp
    | k :: ks =>
      obtain ⟨c, cs, rfl, hn, hcs⟩ := cw_cons_inv hc
      rw [sepLo_cons, sepHi_cons] at hw1
      exact cw_cons_mk hn (ih ks cs (some k) hi c1 hcs (by simpa using hp) hw1)

theorem cw_set_insert {heap : Heap} {h : Nat} :
    ∀ (p : Nat) (K : List Int) (C : List Node) (lo hi : Option Int)
      (c1 m : Node) (sep : Int),
      ChildrenWf heap lo hi h K C → p ≤ K.length →
      NodeWf heap c1 (sepLo lo K p) (some sep) h →
      NodeWf heap m (some sep) (sepHi hi K p) h →
      ChildrenWf heap lo hi h (K.insertIdx p sep) ((C.set p c1).insertIdx (p+1) m) := by
  intro p
  induction p with
  | zero =>
    intro K C lo hi c1 m sep hc hp hw1 hw2
    match K with
    | [] =>
      obtain ⟨c, rfl, hn⟩ := cw_nil_inv hc
      simp only [List.insertIdx_zero, List.set_cons_zero, List.insertIdx_succ_cons]
      exact cw_cons_mk (by simpa [sepLo] using hw1)
        (cw_nil_mk (by simpa [sepHi] using hw2))
    | k :: ks =>
      obtain ⟨c, cs, rfl, hn, hcs⟩ := cw_cons_inv hc
      simp only [List.insertIdx_zero, List.set_cons_zero, List.insertIdx_succ_cons]
      exact cw_cons_mk (by simpa [sepLo] using hw1)
        (cw_cons_mk (by simpa [sepHi, List.getD] using hw2) hcs)
  | succ p ih =>
    intro K C lo hi c1 m sep hc hp hw1 hw2
    match K with
    | [] => simp at hp
    | k :: ks =>
      obtain ⟨c, cs, rfl, hn, hcs⟩ := cw_cons_inv hc
      rw [sepLo_cons] at hw1
      rw [sepHi_cons] at hw2
      simp only [List.insertIdx_succ_cons, List.set_cons_succ]
      exact cw_cons_mk hn
        (ih ks cs (some k) hi c1 m sep hcs (by simpa using hp) hw1 hw2)

theorem cw_split_sep {heap : Heap} {h : Nat} :
    ∀ (mid : Nat) (K : List Int) (C : List Node) (lo hi : Option Int),
      ChildrenWf heap lo hi h K C → mid < K.length →
      ChildrenWf heap lo (some (K.getD mid 0)) h (K.take mid) (C.take (mid+1))
        ∧ ChildrenWf heap (some (K.getD mid 0)) hi h (K.drop (mid+1)) (C.drop (mid+1)) := by
  intro mid
  induction mid with
  | zero =>
    intro K C lo hi hc hm
    match K with
    | k :: ks =>
      obtain ⟨c, cs, rfl, hn, hcs⟩ := cw_cons_inv hc
      exact ⟨cw_nil_mk (by simpa [List.getD] using hn), by simpa [List.getD] using hcs⟩
  | succ mid ih =>
    intro K C lo hi hc hm
    match K with
    | k :: ks =>
      obtain ⟨c, cs, rfl, hn, hcs⟩ := cw_cons_inv hc
      obtain ⟨hl, hr⟩ := ih ks cs (some k) hi hcs (by simpa using hm)
      exact ⟨by simpa [List.getD, List.take_succ_cons] using cw_cons_mk hn hl,
             by simpa [List.getD] using hr⟩

theorem sepLo_take (lo : Option Int) (K : List Int) (p mid : Nat) (hp : p ≤ mid) :
    sepLo lo (K.take mid) p = sepLo lo K p := by
  cases p with
  | zero => rfl
  | succ q =>
    show some ((K.take mid).getD q 0) = some (K.getD q 0)
    rw [getD_take _ _ _ _ (by omega : q < mid)]

theorem sepHi_take (hi : Option Int) (K : List Int) (p mid : Nat)
    (hp : p ≤ mid) (hm : mid < K.length) :
    sepHi (some (K.getD mid 0)) (K.take mid) p = sepHi hi K p := by
  unfold sepHi
  rcases Nat.lt_or_ge p mid with hlt | hge
  · rw [if_pos (by simp only [List.length_take]; omega), if_pos (by omega),
      getD_take _ _ _ _ hlt]
  · have hpm : p = mid := by omega
    subst hpm
    rw [if_neg (by simp only [List.length_take]; omega), if_pos (by omega)]

theorem sepLo_drop (lo : Option Int) (K : List Int) (mid q : Nat) :
    sepLo (some (K.getD mid 0)) (K.drop (mid+1)) q = sepLo lo K (mid+1+q) := by
  cases q with
  | zero => simp [sepLo]
  | succ j =>
    show some ((K.drop (mid+1)).getD j 0) = some (K.getD (mid + 1 + j) 0)
    rw [getD_drop]

theorem sepHi_drop (hi : Option Int) (K : List Int) (mid q : Nat) :
    sepHi hi (K.drop (mid+1)) q = sepHi hi K (mid+1+q) := by
  unfold sepHi
  rcases Nat.lt_or_ge (mid+1+q) K.length with hlt | hge
  · rw [if_pos (by simp only [List.length_drop]; omega), if_pos hlt, getD_drop]
  · rw [if_neg (by simp only [List.length_drop]; omega), if_neg (by omega)]

theorem getD_eq_getElem' {α : Type} (l : List α) (d : α) {i : Nat}
    (h : i < l.length) : l.getD i d = l[i] := by
  rw [List.getD_eq_getElem?_getD, List.getElem?_eq_getElem h]
  rfl

theorem zipWith_take_drop {α β γ : Type} (f : α → β → γ) (ks : List α)
    (vs : List β) (m : Nat) :
    List.zipWith f ks vs
      = List.zipWith f (ks.take m) (vs.take m)
        ++ List.zipWith f (ks.drop m) (vs.drop m) := by
  rw [← List.take_zipWith, ← List.drop_zipWith, List.take_append_drop]

/-! ## Leaf-level insert: the two shapes -/

/-- A non-full, in-capacity, sorted and bounded leaf record absorbs the pair
in place: no split, sortedness, bounds, capacity, alignment and sibling
fields preserved, and the stored multiset grows by exactly the new pair. -/
theorem leafInsert_nonfull_spec (l : LeafNode) (key value : Int)
    (lo hi : Option Int)
    (hfull : l.IsFull = false)
    (hsorted : l.keys.Pairwise (· ≤ ·)) (hvlen : l.values.length = l.keys.length)
    (hcap : l.keys.length ≤ leaf_slotmax)
    (hlo : ∀ k ∈ l.keys, loOk lo k) (hhi : ∀ k ∈ l.keys, hiOk hi k)
    (hklo : loOk lo key) (hkhi : hiOk hi key) :
    l.Insert key value
        = (l.InsertAt (FindFirstGreaterOrEqual key l.keys) key value, none)
    ∧ (l.Insert key value).1.keys.Pairwise (· ≤ ·)
    ∧ (l.Insert key value).1.keys.length = l.keys.length + 1
    ∧ (l.Insert key value).1.keys.length ≤ leaf_slotmax
    ∧ (l.Insert key value).1.values.length = (l.Insert key value).1.keys.length
    ∧ (∀ k ∈ (l.Insert key value).1.keys, loOk lo k)
    ∧ (∀ k ∈ (l.Insert key value).1.keys, hiOk hi k)
    ∧ (l.Insert key value).1.right_sibling = l.right_sibling
    ∧ (l.Insert key value).1.left_sibling = l.left_sibling
    ∧ (List.zipWith KeyValue.mk (l.Insert key value).1.keys
        (l.Insert key value).1.values).Perm
        (⟨key, value⟩ :: List.zipWith KeyValue.mk l.keys l.values) := by
  have heq := LeafNode.insert_nonfull l key value hfull
  have hp := ffge_le_length key l.keys
  have hpv : FindFirstGreaterOrEqual key l.keys ≤ l.values.length := by omega
  have hnotmax : l.keys.length ≠ leaf_slotmax := by
    intro hcontra
    rw [LeafNode.IsFull, hcontra] at hfull
    simp at hfull
  rw [heq]
  simp only [LeafNode.InsertAt]
  refine ⟨trivial, pairwise_insertIdx_ffge key l.keys hsorted, ?_, ?_, ?_, ?_, ?_, trivial,
    trivial, ?_⟩
  · exact List.length_insertIdx _ _ hp
  · rw [List.length_insertIdx _ _ hp]
    omega
  · rw [List.length_insertIdx _ _ hp, List.length_insertIdx _ _ hpv]
    omega
  · intro k hk
    rcases mem_insertIdx_ffge hk with rfl | hk
    · exact hklo
    · exact hlo k hk
  · intro k hk
    rcases mem_insertIdx_ffge hk with rfl | hk
    · exact hkhi
    · exact hhi k hk
  · rw [zipWith_insertIdx _ _ _ _ _ _ hvlen hp]
    exact List.perm_insertIdx _ _ (by rw [List.length_zipWith]; omega)

/-- A full, sorted and bounded leaf record splits: the two halves are
well-formed leaf records on either side of the split key (inclusively — with
duplicates a key equal to the split key may remain on the left), the split
key is itself in bounds, sibling fields are as the source leaves them before
the chain splice, and the two halves together store exactly the old multiset
plus the new pair. -/
theorem leafInsert_full_spec (l : LeafNode) (key value : Int)
    (lo hi : Option Int)
    (hfull : l.IsFull = true)
    (hsorted : l.keys.Pairwise (· ≤ ·)) (hvlen : l.values.length = l.keys.length)
    (hlo : ∀ k ∈ l.keys, loOk lo k) (hhi : ∀ k ∈ l.keys, hiOk hi k)
    (hklo : loOk lo key) (hkhi : hiOk hi key) :
    ∃ self1 new1 sk, l.Insert key value = (self1, some (new1, sk))
    ∧ self1.keys ≠ [] ∧ self1.keys.length ≤ leaf_slotmax
    ∧ self1.values.length = self1.keys.length
    ∧ self1.keys.Pairwise (· ≤ ·)
    ∧ (∀ k ∈ self1.keys, loOk lo k) ∧ (∀ k ∈ self1.keys, k ≤ sk)
    ∧ new1.keys ≠ [] ∧ new1.keys.length ≤ leaf_slotmax
    ∧ new1.values.length = new1.keys.length
    ∧ new1.keys.Pairwise (· ≤ ·)
    ∧ (∀ k ∈ new1.keys, sk ≤ k) ∧ (∀ k ∈ new1.keys, hiOk hi k)
    ∧ loOk lo sk ∧ hiOk hi sk
    ∧ self1.right_sibling = l.right_sibling ∧ self1.left_sibling = l.left_sibling
    ∧ new1.right_sibling = none ∧ new1.left_sibling = none
    ∧ (List.zipWith KeyValue.mk self1.keys self1.values
        ++ List.zipWith KeyValue.mk new1.keys new1.values).Perm
        (⟨key, value⟩ :: List.zipWith KeyValue.mk l.keys l.values) := by
  have hlen : l.keys.length = 256 := by
    simpa [LeafNode.IsFull, leaf_slotmax] using hfull
  set mid := l.keys.length / 2 with hmid
  have hmidlt : mid < l.keys.length := by omega
  set sk := l.keys.getD mid 0 with hsk
  have hskmem : sk ∈ l.keys := getD_mem_of_lt _ _ _ hmidlt
  -- facts about the two halves
  have htsorted : (l.keys.take mid).Pairwise (· ≤ ·) :=
    List.Pairwise.sublist (List.take_sublist mid l.keys) hsorted
  have hdsorted : (l.keys.drop mid).Pairwise (· ≤ ·) :=
    List.Pairwise.sublist (List.drop_sublist mid l.keys) hsorted
  have hpk := List.pairwise_iff_getElem.mp hsorted
  have htake_le : ∀ k ∈ l.keys.take mid, k ≤ sk := by
    intro k hk
    obtain ⟨i, hi, hik⟩ := List.mem_iff_getElem.mp hk
    have hi' : i < mid := by
      simp only [List.length_take] at hi
      omega
    rw [List.getElem_take] at hik
    rw [← hik, hsk, getD_eq_getElem' _ _ hmidlt]
    exact hpk i mid (by omega) hmidlt hi' 
  have hdrop_ge : ∀ k ∈ l.keys.drop mid, sk ≤ k := by
    intro k hk
    obtain ⟨j, hj, hjk⟩ := List.mem_iff_getElem.mp hk
    have hj' : mid + j < l.keys.length := by
      simp only [List.length_drop] at hj
      omega
    rw [List.getElem_drop] at hjk
    rw [← hjk, hsk, getD_eq_getElem' _ _ hmidlt]
    rcases Nat.eq_zero_or_pos j with rfl | hjpos
    · simp
    · exact hpk mid (mid + j) hmidlt hj' (by omega)
  have hmem_take : ∀ k ∈ l.keys.take mid, k ∈ l.keys :=
    fun k hk => (List.take_sublist mid l.keys).mem hk
  have hmem_drop : ∀ k ∈ l.keys.drop mid, k ∈ l.keys :=
    fun k hk => (List.drop_sublist mid l.keys).mem hk
  have hsplit := leaf_split_insert_aux l key value hfull hvlen
  rw [← hmid, ← hsk] at hsplit
  obtain ⟨hdlen, htlen, hcase⟩ := hsplit
  have htlen' : (l.keys.take mid).length = mid := htlen
  have hvt : (l.values.take mid).length = (l.keys.take mid).length := by
    simp [List.length_take]; omega
  have hvd : (l.values.drop mid).length = (l.keys.drop mid).length := by
    simp [List.length_drop]; omega
  have hzipfull : List.zipWith KeyValue.mk l.keys l.values
      = List.zipWith KeyValue.mk (l.keys.take mid) (l.values.take mid)
        ++ List.zipWith KeyValue.mk (l.keys.drop mid) (l.values.drop mid) :=
    zipWith_take_drop _ _ _ mid
  by_cases hkey : key < sk
  · rw [if_pos hkey] at hcase
    obtain ⟨heq, -⟩ := hcase
    have hffge := ffge_le_length key (l.keys.take mid)
    refine ⟨_, _, sk, heq, ?_, ?_, ?_, ?_, ?_, ?_, ?_, ?_, ?_, ?_, ?_, ?_,
      hlo sk hskmem, hhi sk hskmem, rfl, rfl, rfl, rfl, ?_⟩
    · simp only [LeafNode.InsertAt]
      intro hcontra
      have := congrArg List.length hcontra
      rw [List.length_insertIdx _ _ (by omega)] at this
      simp at this
    · simp only [LeafNode.InsertAt]
      rw [List.length_insertIdx _ _ (by omega)]
      simp only [leaf_slotmax]
      omega
    · simp only [LeafNode.InsertAt]
      rw [List.length_insertIdx _ _ (by omega), List.length_insertIdx _ _ (by omega)]
      simp [List.length_take]
      omega
    · exact pairwise_insertIdx_ffge key _ htsorted
    · intro k hk
      rcases mem_insertIdx_ffge hk with rfl | hk
      · exact hklo
      · exact hlo k (hmem_take k hk)
    · intro k hk
      rcases mem_insertIdx_ffge hk with rfl | hk
      · exact le_of_lt hkey
      · exact htake_le k hk
    · intro hcontra
      have := congrArg List.length hcontra
      rw [List.length_drop] at this
      simp at this
      omega
    · rw [List.length_drop]
      simp only [leaf_slotmax]
      omega
    · rw [hvd]
    · exact hdsorted
    · exact hdrop_ge
    · exact fun k hk => hhi k (hmem_drop k hk)
    · simp only [LeafNode.InsertAt]
      rw [zipWith_insertIdx _ _ _ _ _ _ hvt hffge, hzipfull]
      exact (List.perm_insertIdx _ _ (by rw [List.length_zipWith]; omega)).append_right _
  · rw [if_neg hkey] at hcase
    obtain ⟨heq, -⟩ := hcase
    have hffge := ffge_le_length key (l.keys.drop mid)
    refine ⟨_, _, sk, heq, ?_, ?_, ?_, htsorted, ?_, htake_le, ?_, ?_, ?_, ?_, ?_, ?_,
      hlo sk hskmem, hhi sk hskmem, rfl, rfl, rfl, rfl, ?_⟩
    · intro hcontra
      have := congrArg List.length hcontra
      simp only [List.length_take, List.length_nil] at this
      omega
    · rw [List.length_take]
      simp only [leaf_slotmax]
      omega
    · exact hvt
    · exact fun k hk => hlo k (hmem_take k hk)
    · simp only [LeafNode.InsertAt]
      intro hcontra
      have := congrArg List.length hcontra
      rw [List.length_insertIdx _ _ (by omega)] at this
      simp at this
    · simp only [LeafNode.InsertAt]
      rw [List.length_insertIdx _ _ (by omega)]
      rw [List.length_drop]
      simp only [leaf_slotmax]
      omega
    · simp only [LeafNode.InsertAt]
      rw [List.length_insertIdx _ _ (by omega), List.length_insertIdx _ _ (by omega)]
      simp [List.length_drop]
      omega
    · exact pairwise_insertIdx_ffge key _ hdsorted
    · intro k hk
      rcases mem_insertIdx_ffge hk with rfl | hk
      · omega
      · exact hdrop_ge k hk
    · intro k hk
      rcases mem_insertIdx_ffge hk with rfl | hk
      · exact hkhi
      · exact hhi k (hmem_drop k hk)
    · simp only [LeafNode.InsertAt]
      rw [zipWith_insertIdx _ _ _ _ _ _ hvd hffge, hzipfull]
      exact ((List.perm_insertIdx _ _ (by rw [List.length_zipWith]; omega)).append_left
        _).trans List.perm_middle

/-! ## insertIdx/set versus take/drop -/

theorem insertIdx_take {α : Type} (l : List α) (a : α) :
    ∀ (i n : Nat), i ≤ n → i ≤ l.length →
      (l.insertIdx i a).take (n + 1) = (l.take n).insertIdx i a := by
  induction l with
  | nil =>
    intro i n hi hil
    simp only [List.length_nil, Nat.le_zero] at hil
    subst hil
    simp
  | cons x xs ih =>
    intro i n hi hil
    cases i with
    | zero => simp [List.insertIdx_zero]
    | succ i =>
      cases n with
      | zero => omega
      | succ n =>
        simp only [List.insertIdx_succ_cons, List.take_succ_cons]
        rw [ih i n (by omega) (by simpa using hil)]

theorem insertIdx_drop {α : Type} (l : List α) (a : α) :
    ∀ (i n : Nat), i ≤ n →
      (l.insertIdx i a).drop (n + 1) = l.drop n := by
  induction l with
  | nil =>
    intro i n hi
    cases i <;> simp
  | cons x xs ih =>
    intro i n hi
    cases i with
    | zero => simp [List.insertIdx_zero]
    | succ i =>
      cases n with
      | zero => omega
      | succ n =>
        simp only [List.insertIdx_succ_cons, List.drop_succ_cons]
        exact ih i n (by omega)

theorem insertIdx_take_of_le {α : Type} (l : List α) (a : α) :
    ∀ (i n : Nat), n ≤ i → (l.insertIdx i a).take n = l.take n := by
  induction l with
  | nil =>
    intro i n hn
    cases i <;> cases n <;> simp_all
  | cons x xs ih =>
    intro i n hn
    cases i with
    | zero =>
      cases n with
      | zero => simp
      | succ n => omega
    | succ i =>
      cases n with
      | zero => simp
      | succ n =>
        simp only [List.insertIdx_succ_cons, List.take_succ_cons]
        rw [ih i n (by omega)]

theorem insertIdx_drop_of_le {α : Type} (l : List α) (a : α) :
    ∀ (i n : Nat), n ≤ i → i ≤ l.length →
      (l.insertIdx i a).drop n = (l.drop n).insertIdx (i - n) a := by
  induction l with
  | nil =>
    intro i n hn hil
    simp only [List.length_nil, Nat.le_zero] at hil
    subst hil
    simp only [Nat.le_zero] at hn
    subst hn
    simp
  | cons x xs ih =>
    intro i n hn hil
    cases i with
    | zero =>
      cases n with
      | zero => simp
      | succ n => omega
    | succ i =>
      cases n with
      | zero => simp
      | succ n =>
        simp only [List.insertIdx_succ_cons, List.drop_succ_cons]
        rw [ih i n (by omega) (by simpa using hil)]
        congr 1
        omega

theorem set_drop_of_lt {α : Type} (l : List α) (a : α) :
    ∀ (m n : Nat), m < n → (l.set m a).drop n = l.drop n := by
  induction l with
  | nil => intro m n _; simp
  | cons x xs ih =>
    intro m n hmn
    cases m with
    | zero =>
      cases n with
      | zero => omega
      | succ n => simp
    | succ m =>
      cases n with
      | zero => omega
      | succ n =>
        simp only [List.set_cons_succ, List.drop_succ_cons]
        exact ih m n (by omega)

theorem set_drop_of_ge {α : Type} (l : List α) (a : α) :
    ∀ (m n : Nat), n ≤ m → (l.set m a).drop n = (l.drop n).set (m - n) a := by
  induction l with
  | nil => intro m n _; simp
  | cons x xs ih =>
    intro m n hnm
    cases m with
    | zero =>
      cases n with
      | zero => simp
      | succ n => omega
    | succ m =>
      cases n with
      | zero => simp
      | succ n =>
        simp only [List.set_cons_succ, List.drop_succ_cons]
        rw [ih m n (by omega)]
        congr 1
        omega

theorem getD_insertIdx_lt {α : Type} (l : List α) (a d : α) (i p : Nat)
    (h : i < p) (hp : p ≤ l.length) :
    (l.insertIdx p a).getD i d = l.getD i d := by
  have h1 : i < l.length := by omega
  have h2 : i < (l.insertIdx p a).length := by
    rw [List.length_insertIdx _ _ hp]; omega
  rw [getD_eq_getElem' _ _ h2, getD_eq_getElem' _ _ h1,
    List.getElem_insertIdx_of_lt l a p i h h1]

theorem getD_insertIdx_ge {α : Type} (l : List α) (a d : α) (i p : Nat)
    (h : p ≤ i) (hi : i < l.length) :
    (l.insertIdx p a).getD (i + 1) d = l.getD i d := by
  have h2 : i + 1 < (l.insertIdx p a).length := by
    rw [List.length_insertIdx _ _ (by omega)]; omega
  obtain ⟨k, rfl⟩ : ∃ k, i = p + k := ⟨i - p, by omega⟩
  rw [getD_eq_getElem' _ _ h2, getD_eq_getElem' _ _ hi]
  exact List.getElem_insertIdx_add_succ l a p k hi

/-! ## Rebuilding `ChildrenWf` across a heap change

After descending into child `p`, the heap changes: the descent child's
leaves are updated while every sibling subtree keeps its key/value arrays.
These lemmas rebuild the children row under the new heap, given a transfer
property for the siblings only. -/

theorem cw_replace_trans {heap heap1 : Heap} {h : Nat} :
    ∀ (A : List Node) (K : List Int) (B : List Node) (c : Node)
      (lo hi : Option Int) (c1 : Node),
      ChildrenWf heap lo hi h K (A ++ c :: B) → A.length ≤ K.length →
      (∀ c' ∈ A ++ B, ∀ lo' hi', NodeWf heap c' lo' hi' h → NodeWf heap1 c' lo' hi' h) →
      NodeWf heap1 c1 (sepLo lo K A.length) (sepHi hi K A.length) h →
      ChildrenWf heap1 lo hi h K (A ++ c1 :: B) := by
  intro A
  induction A with
  | nil =>
    intro K B c lo hi c1 hc hp htr hw1
    rw [List.nil_append] at hc ⊢
    match K with
    | [] =>
      match B with
      | [] =>
        exact cw_nil_mk (by simpa [sepLo, sepHi] using hw1)
      | b :: bs =>
        obtain ⟨c', hc', -⟩ := cw_nil_inv hc
        exact absurd (congrArg List.length hc') (by simp)
    | k :: ks =>
      rw [ChildrenWf] at hc
      refine cw_cons_mk (by simpa [sepLo, sepHi, List.getD] using hw1) ?_
      exact cw_frame_aux ks B (some k) hi
        (fun c'' hc'' lo' hi' => htr c'' (by simp [hc'']) lo' hi') hc.2
  | cons a A ih =>
    intro K B c lo hi c1 hc hp htr hw1
    match K with
    | [] => simp at hp
    | k :: ks =>
      rw [List.cons_append] at hc
      rw [ChildrenWf] at hc
      rw [show (a :: A).length = A.length + 1 from rfl, sepLo_cons, sepHi_cons] at hw1
      rw [List.cons_append]
      refine cw_cons_mk (htr a (by simp) lo (some k) hc.1) ?_
      exact ih ks B c (some k) hi c1 hc.2 (by simpa using hp)
        (fun c'' hc'' => htr c'' (by simp at hc''; simp [hc''])) hw1

theorem cw_insert_trans {heap heap1 : Heap} {h : Nat} :
    ∀ (A : List Node) (K : List Int) (B : List Node) (c : Node)
      (lo hi : Option Int) (c1 m : Node) (sep : Int),
      ChildrenWf heap lo hi h K (A ++ c :: B) → A.length ≤ K.length →
      (∀ c' ∈ A ++ B, ∀ lo' hi', NodeWf heap c' lo' hi' h → NodeWf heap1 c' lo' hi' h) →
      NodeWf heap1 c1 (sepLo lo K A.length) (some sep) h →
      NodeWf heap1 m (some sep) (sepHi hi K A.length) h →
      ChildrenWf heap1 lo hi h (K.insertIdx A.length sep) (A ++ c1 :: m :: B) := by
  intro A
  induction A with
  | nil =>
    intro K B c lo hi c1 m sep hc hp htr hw1 hw2
    rw [List.nil_append] at hc ⊢
    simp only [List.length_nil, List.insertIdx_zero]
    match K with
    | [] =>
      match B with
      | [] =>
        exact cw_cons_mk (by simpa [sepLo] using hw1)
          (cw_nil_mk (by simpa [sepHi] using hw2))
      | b :: bs =>
        obtain ⟨c', hc', -⟩ := cw_nil_inv hc
        exact absurd (congrArg List.length hc') (by simp)
    | k :: ks =>
      rw [ChildrenWf] at hc
      refine cw_cons_mk (by simpa [sepLo] using hw1) ?_
      refine cw_cons_mk (by simpa [sepHi, List.getD] using hw2) ?_
      exact cw_frame_aux ks B (some k) hi
        (fun c'' hc'' lo' hi' => htr c'' (by simp [hc'']) lo' hi') hc.2
  | cons a A ih =>
    intro K B c lo hi c1 m sep hc hp htr hw1 hw2
    match K with
    | [] => simp at hp
    | k :: ks =>
      rw [List.cons_append] at hc
      rw [ChildrenWf] at hc
      rw [show (a :: A).length = A.length + 1 from rfl, sepLo_cons] at hw1
      rw [show (a :: A).length = A.length + 1 from rfl, sepHi_cons] at hw2
      rw [show (a :: A).length = A.length + 1 from rfl, List.insertIdx_succ_cons,
        List.cons_append]
      refine cw_cons_mk (htr a (by simp) lo (some k) hc.1) ?_
      exact ih ks B c (some k) hi c1 m sep hc.2 (by simpa using hp)
        (fun c'' hc'' => htr c'' (by simp at hc''; simp [hc''])) hw1 hw2

/-! ## The insert preservation statement -/

/-- In-order leaf sequence of the whole result of a `node::Insert` call: the
updated subtree followed by the new sibling subtree, if one was reported. -/
def combIds (out : Node × Heap × Option (Node × Int)) : List Nat :=
  out.1.leafIds ++ (match out.2.2 with | none => [] | some (m, _) => m.leafIds)

/-- Everything `node::Insert` guarantees on a well-formed subtree: the heap
only grows; key/value arrays and forward sibling pointers of leaves outside
the subtree are untouched; either no leaf was split (leaf sequence and every
forward pointer unchanged) or exactly one fresh leaf was spliced in right
after the split leaf; and the resulting subtree(s) are well-formed at the
same depth with the stored multiset extended by exactly the new pair. -/
def InsertSpec (heap : Heap) (n : Node) (key value : Int)
    (lo hi : Option Int) (h : Nat) (out : Node × Heap × Option (Node × Int)) : Prop :=
  heap.length ≤ out.2.1.length
  ∧ (∀ j, j < heap.length → j ∉ n.leafIds →
      (hget out.2.1 j).keys = (hget heap j).keys
      ∧ (hget out.2.1 j).values = (hget heap j).values
      ∧ (hget out.2.1 j).right_sibling = (hget heap j).right_sibling)
  ∧ ((out.2.1.length = heap.length ∧ combIds out = n.leafIds
        ∧ ∀ j, (hget out.2.1 j).right_sibling = (hget heap j).right_sibling)
     ∨ (out.2.1.length = heap.length + 1
        ∧ ∃ xs id ys, n.leafIds = xs ++ id :: ys
            ∧ combIds out = xs ++ id :: heap.length :: ys
            ∧ (hget out.2.1 id).right_sibling = some heap.length
            ∧ (hget out.2.1 heap.length).right_sibling = (hget heap id).right_sibling
            ∧ ∀ j, j ≠ id → j ≠ heap.length →
                (hget out.2.1 j).right_sibling = (hget heap j).right_sibling))
  ∧ (match out.2.2 with
     | none => NodeWf out.2.1 out.1 lo hi h
        ∧ (out.1.contents out.2.1).Perm (⟨key, value⟩ :: n.contents heap)
     | some (m, sk) => NodeWf out.2.1 out.1 lo (some sk) h
        ∧ NodeWf out.2.1 m (some sk) hi h
        ∧ loOk lo sk ∧ hiOk hi sk
        ∧ (out.1.contents out.2.1 ++ m.contents out.2.1).Perm
            (⟨key, value⟩ :: n.contents heap))

theorem hget_ge {heap : Heap} {j : Nat} (h : heap.length ≤ j) :
    hget heap j = default := by
  simp [hget, List.getD_eq_getElem?_getD, List.getElem?_eq_none h]

/-- The leaf case of the preservation proof. -/
theorem insert_spec_leaf (id : Nat) (heap : Heap) (key value : Int)
    (lo hi : Option Int) (h : Nat)
    (hw : NodeWf heap (.leafRef id) lo hi h)
    (hlo : loOk lo key) (hhi : hiStrict hi key) :
    InsertSpec heap (.leafRef id) key value lo hi h
      ((Node.leafRef id).Insert heap key value) := by
  rw [NodeWf] at hw
  obtain ⟨hh0, hid, hne, hcap, hvlen, hsorted, hlok, hhik⟩ := hw
  subst hh0
  have hhi' : hiOk hi key := fun b hb => le_of_lt (hhi b hb)
  by_cases hfull : (hget heap id).IsFull
  · -- the leaf splits
    obtain ⟨self1, new1, sk, heq, hs_ne, hs_cap, hs_vlen, hs_sorted, hs_lo, hs_le,
      hn_ne, hn_cap, hn_vlen, hn_sorted, hn_ge, hn_hi, hsk_lo, hsk_hi,
      hs_right, hs_left, hn_right, hn_left, hperm⟩ :=
      leafInsert_full_spec (hget heap id) key value lo hi hfull hsorted hvlen
        hlok hhik hlo hhi'
    set newId := heap.length with hnewId
    set new2 : LeafNode :=
      { new1 with right_sibling := self1.right_sibling, left_sibling := some id }
      with hnew2
    set self2 : LeafNode := { self1 with right_sibling := some newId } with hself2
    set heap1 : Heap := heap.set id self2 ++ [new2] with hheap1
    set heap2 : Heap :=
      match self1.right_sibling with
      | none => heap1
      | some r => heap1.set r { hget heap1 r with left_sibling := some newId }
      with hheap2
    have hunfold : heapLeafInsert heap id key value = (heap2, some (newId, sk)) := by
      rw [heapLeafInsert]
      simp only [heq]
    have hout : (Node.leafRef id).Insert heap key value
        = (.leafRef id, heap2, some (.leafRef newId, sk)) := by
      rw [Node.Insert, hunfold]
    rw [hout]
    unfold InsertSpec
    simp only []
    have hlen1 : heap1.length = heap.length + 1 := by
      rw [hheap1]
      simp
    have hfields : ∀ j, (hget heap2 j).keys = (hget heap1 j).keys
        ∧ (hget heap2 j).values = (hget heap1 j).values
        ∧ (hget heap2 j).right_sibling = (hget heap1 j).right_sibling := by
      intro j
      rw [hheap2]
      rcases self1.right_sibling with _ | r
      · exact ⟨rfl, rfl, rfl⟩
      · simp only []
        by_cases hjr : r = j
        · subst hjr
          by_cases hr : r < heap1.length
          · rw [hget_set_self _ hr]
            exact ⟨rfl, rfl, rfl⟩
          · rw [List.set_eq_of_length_le (le_of_not_lt hr)]
            exact ⟨rfl, rfl, rfl⟩
        · rw [hget_set_ne _ hjr]
          exact ⟨rfl, rfl, rfl⟩
    have hlen2 : heap2.length = heap.length + 1 := by
      rw [hheap2]
      rcases self1.right_sibling with _ | r
      · exact hlen1
      · simpa using hlen1
    have hget1_id : hget heap1 id = self2 := by
      rw [hheap1, hget_append_lt _ (by simpa using hid), hget_set_self _ hid]
    have hget1_new : hget heap1 newId = new2 := by
      rw [hheap1, hnewId, show heap.length = (heap.set id self2).length by simp,
        hget_append_self]
    have hget1_other : ∀ j, j ≠ id → j ≠ newId → hget heap1 j = hget heap j := by
      intro j hjid hjnew
      rcases Nat.lt_or_ge j heap.length with hj | hj
      · rw [hheap1, hget_append_lt _ (by simpa using hj), hget_set_ne _ (Ne.symm hjid)]
      · have hj' : heap.length < j := by
          rcases Nat.eq_or_lt_of_le hj with rfl | hlt
          · exact absurd rfl hjnew
          · exact hlt
        rw [hget_ge (show heap1.length ≤ j from by omega), hget_ge hj]
    refine ⟨by omega, ?_, ?_, ?_⟩
    · intro j hj hjids
      rw [leafIds_leaf, List.mem_singleton] at hjids
      have hjnew : j ≠ newId := by omega
      obtain ⟨h1, h2, h3⟩ := hfields j
      rw [h1, h2, h3, hget1_other j hjids hjnew]
      exact ⟨rfl, rfl, rfl⟩
    · right
      refine ⟨hlen2, [], id, [], by simp [leafIds_leaf], ?_, ?_, ?_, ?_⟩
      · simp [combIds, leafIds_leaf]
      · rw [(hfields id).2.2, hget1_id]
      · rw [(hfields newId).2.2, hget1_new, ← hs_right]
      · intro j hjid hjnew
        rw [(hfields j).2.2, hget1_other j hjid hjnew]
    · have hgid : (hget heap2 id).keys = self1.keys
          ∧ (hget heap2 id).values = self1.values := by
        obtain ⟨h1, h2, -⟩ := hfields id
        rw [h1, h2, hget1_id]
        exact ⟨rfl, rfl⟩
      have hgnew : (hget heap2 newId).keys = new1.keys
          ∧ (hget heap2 newId).values = new1.values := by
        obtain ⟨h1, h2, -⟩ := hfields newId
        rw [h1, h2, hget1_new]
        exact ⟨rfl, rfl⟩
      refine ⟨?_, ?_, hsk_lo, hsk_hi, ?_⟩
      · rw [NodeWf]
        refine ⟨rfl, by omega, ?_⟩
        rw [hgid.1, hgid.2]
        exact ⟨hs_ne, hs_cap, hs_vlen, hs_sorted, hs_lo,
          fun k hk b hb => by
            rw [Option.some_inj] at hb
            exact hb ▸ hs_le k hk⟩
      · rw [NodeWf]
        refine ⟨rfl, by omega, ?_⟩
        rw [hgnew.1, hgnew.2]
        exact ⟨hn_ne, hn_cap, hn_vlen, hn_sorted,
          fun k hk a ha => by
            rw [Option.some_inj] at ha
            exact ha ▸ hn_ge k hk,
          hn_hi⟩
      · rw [contents_leaf, contents_leaf, contents_leaf]
        unfold contentsOf
        rw [hgid.1, hgid.2, hgnew.1, hgnew.2]
        exact hperm
  · -- the leaf absorbs the pair
    have hfull' : (hget heap id).IsFull = false := by
      simpa using hfull
    obtain ⟨heq, ha_sorted, ha_len, ha_cap, ha_vlen, ha_lo, ha_hi, ha_right,
      ha_left, ha_perm⟩ :=
      leafInsert_nonfull_spec (hget heap id) key value lo hi hfull' hsorted hvlen
        hcap hlok hhik hlo hhi'
    set l1 := ((hget heap id).Insert key value).1 with hl1
    have heq1 : (hget heap id).Insert key value = (l1, none) := by
      rw [heq]
      rw [hl1, heq]
    have hunfold : heapLeafInsert heap id key value = (heap.set id l1, none) := by
      rw [heapLeafInsert]
      simp only [heq1]
    have hout : (Node.leafRef id).Insert heap key value
        = (.leafRef id, heap.set id l1, none) := by
      rw [Node.Insert, hunfold]
    rw [hout]
    unfold InsertSpec
    simp only []
    have hgid : hget (heap.set id l1) id = l1 := hget_set_self _ hid
    have hgother : ∀ j, j ≠ id → hget (heap.set id l1) j = hget heap j :=
      fun j hj => hget_set_ne _ (Ne.symm hj)
    refine ⟨by simp, ?_, ?_, ?_⟩
    · intro j hj hjids
      rw [leafIds_leaf, List.mem_singleton] at hjids
      rw [hgother j hjids]
      exact ⟨rfl, rfl, rfl⟩
    · left
      refine ⟨by simp, by simp [combIds, leafIds_leaf], ?_⟩
      intro j
      by_cases hj : j = id
      · subst hj
        rw [hgid, ha_right]
      · rw [hgother j hj]
    · constructor
      · rw [NodeWf]
        refine ⟨rfl, ?_⟩
        unfold leafWf
        rw [hgid]
        exact ⟨by simp; omega, by intro hcontra; rw [hcontra] at ha_len; simp at ha_len,
          ha_cap, ha_vlen, ha_sorted, fun k hk => ha_lo k hk, fun k hk => ha_hi k hk⟩
      · rw [contents_leaf, contents_leaf]
        unfold contentsOf
        rw [hgid]
        exact ha_perm

theorem append_cons_insertIdx {α : Type} (A : List α) (c1 m : α) (B : List α) :
    (A ++ c1 :: B).insertIdx (A.length + 1) m = A ++ c1 :: m :: B := by
  induction A with
  | nil => simp [List.insertIdx_succ_cons]
  | cons a A ih => simpa [List.insertIdx_succ_cons] using ih

/-- Splitting the no-duplicates property of a leaf sequence at one child. -/
theorem nodup_parts {A B : List Node} {c : Node}
    (h : ((A ++ c :: B).flatMap Node.leafIds).Nodup) :
    c.leafIds.Nodup ∧ ∀ id ∈ (A ++ B).flatMap Node.leafIds, id ∉ c.leafIds := by
  rw [List.flatMap_append, List.flatMap_cons] at h
  obtain ⟨hFA, hrest, hdisj⟩ := List.nodup_append.mp h
  obtain ⟨hcIds, hFB, hdisj2⟩ := List.nodup_append.mp hrest
  refine ⟨hcIds, ?_⟩
  intro id hid hidc
  rw [List.flatMap_append, List.mem_append] at hid
  rcases hid with hid | hid
  · exact hdisj hid (List.mem_append.mpr (Or.inl hidc))
  · exact hdisj2 hidc hid

/-- The preservation theorem: `node::Insert` on a well-formed subtree
satisfies `InsertSpec`. -/
theorem insert_spec :
    ∀ (n : Node) (heap : Heap) (key value : Int) (lo hi : Option Int) (h : Nat),
      NodeWf heap n lo hi h → n.leafIds.Nodup →
      loOk lo key → hiStrict hi key →
      InsertSpec heap n key value lo hi h (n.Insert heap key value) := by
  refine Node.strongInd ?_
  intro n ihs heap key value lo hi h hw hnd hlo hhi
  match n with
  | .leafRef id => exact insert_spec_leaf id heap key value lo hi h hw hlo hhi
  | .inner K C =>
    have hwInner := hw
    rw [NodeWf] at hw
    obtain ⟨hhpos, hKne, hKcap, hcw⟩ := hw
    have hClen : C.length = K.length + 1 := cw_length hcw
    set p := FindFirstGreaterOrEqual key K with hp
    have hpK : p ≤ K.length := ffge_le_length key K
    have hpC : p < C.length := by omega
    set child := C[p] with hchild
    have hCp : C[p]? = some child := List.getElem?_eq_getElem hpC
    have hchild_mem : child ∈ C := List.getElem_mem hpC
    have hwc : NodeWf heap child (sepLo lo K p) (sepHi hi K p) (h - 1) :=
      cw_child hcw p hpK hCp
    set A := C.take p with hA
    set B := C.drop (p + 1) with hB
    have hALen : A.length = p := by
      rw [hA, List.length_take]
      omega
    have hdecomp : C = A ++ child :: B := by
      rw [hA, hB, hchild]
      conv_lhs => rw [← List.take_append_drop p C]
      rw [List.drop_eq_getElem_cons hpC]
    have hndFlat : (C.flatMap Node.leafIds).Nodup := by
      rwa [leafIds_inner] at hnd
    have hparts := nodup_parts (hdecomp ▸ hndFlat)
    have hlo_c : loOk (sepLo lo K p) key := by
      cases hq : p with
      | zero => exact hlo
      | succ q =>
        intro a ha
        rw [sepLo, Option.some_inj] at ha
        subst ha
        exact ffge_before key K q (by omega)
    have hhi_c : hiStrict (sepHi hi K p) key := by
      intro b hb
      rw [sepHi] at hb
      split at hb
      · rw [Option.some_inj] at hb
        subst hb
        exact ffge_lt key K (by omega)
      · exact hhi b hb
    have IH := ihs child (sizeOf_child_lt hchild_mem) heap key value
      (sepLo lo K p) (sepHi hi K p) (h - 1) hwc hparts.1 hlo_c hhi_c
    have hidsflat : (Node.inner K C).leafIds
        = A.flatMap Node.leafIds ++ (child.leafIds ++ B.flatMap Node.leafIds) := by
      rw [leafIds_inner, hdecomp, List.flatMap_append, List.flatMap_cons]
    have hcontflat : (Node.inner K C).contents heap
        = A.flatMap (Node.contents heap)
          ++ (child.contents heap ++ B.flatMap (Node.contents heap)) := by
      rw [contents_inner, hdecomp, List.flatMap_append, List.flatMap_cons]
    rcases hres : child.Insert heap key value with ⟨child1, heap1, r⟩
    rw [hres] at IH
    unfold InsertSpec at IH
    obtain ⟨IH1, IH2, IH3, IH4⟩ := IH
    -- simplification of the sub-call projections
    simp only [] at IH1 IH2 IH3 IH4
    -- shared consequences
    have hc2 : ∀ j, j < heap.length → j ∉ (Node.inner K C).leafIds →
        (hget heap1 j).keys = (hget heap j).keys
        ∧ (hget heap1 j).values = (hget heap j).values
        ∧ (hget heap1 j).right_sibling = (hget heap j).right_sibling := by
      intro j hj hjn
      refine IH2 j hj ?_
      intro hjc
      exact hjn (by
        rw [leafIds_inner]
        exact List.mem_flatMap.mpr ⟨child, hchild_mem, hjc⟩)
    have htrans : ∀ c' ∈ A ++ B, ∀ lo' hi',
        NodeWf heap c' lo' hi' (h - 1) → NodeWf heap1 c' lo' hi' (h - 1) := by
      intro c' hc' lo' hi' hw'
      refine nodeWf_frame c' heap heap1 lo' hi' (h - 1) IH1 ?_ hw'
      intro id' hid'
      have hlt : id' < heap.length :=
        (nodeWf_leaf_facts c' heap lo' hi' (h - 1) hw' id' hid').1
      have hnotin : id' ∉ child.leafIds :=
        hparts.2 id' (List.mem_flatMap.mpr ⟨c', hc', hid'⟩)
      exact ⟨(IH2 id' hlt hnotin).1, (IH2 id' hlt hnotin).2.1⟩
    have hsameAB : ∀ c' ∈ A ++ B, c'.contents heap1 = c'.contents heap := by
      intro c' hc'
      have hc'C : c' ∈ C := by
        rw [hdecomp]
        rcases List.mem_append.mp hc' with h1 | h1
        · exact List.mem_append.mpr (Or.inl h1)
        · exact List.mem_append.mpr (Or.inr (List.mem_cons_of_mem _ h1))
      obtain ⟨lo', hi', hw'⟩ := cw_mem hcw c' hc'C
      refine contents_frame ?_
      intro id' hid'
      have hlt : id' < heap.length :=
        (nodeWf_leaf_facts c' heap lo' hi' (h - 1) hw' id' hid').1
      have hnotin : id' ∉ child.leafIds :=
        hparts.2 id' (List.mem_flatMap.mpr ⟨c', hc', hid'⟩)
      exact ⟨(IH2 id' hlt hnotin).1, (IH2 id' hlt hnotin).2.1⟩
    have hsameA : A.flatMap (Node.contents heap1) = A.flatMap (Node.contents heap) :=
      flatMap_congr_mem fun c' hc' => hsameAB c' (List.mem_append.mpr (Or.inl hc'))
    have hsameB : B.flatMap (Node.contents heap1) = B.flatMap (Node.contents heap) :=
      flatMap_congr_mem fun c' hc' => hsameAB c' (List.mem_append.mpr (Or.inr hc'))
    have hsetE : C.set p child1 = A ++ child1 :: B := by
      rw [hA, hB, List.set_eq_take_cons_drop child1 hpC]
    rcases r with _ | ⟨nn, nk⟩
    · -- the child absorbed the pair: replace it in place
      obtain ⟨hwc1, hpermc⟩ := IH4
      have hout : (Node.inner K C).Insert heap key value
          = (.inner K (C.set p child1), heap1, none) := by
        rw [Node.Insert, ← hp]
        rw [hCp]
        simp only [hres]
      rw [hout]
      unfold InsertSpec
      refine ⟨IH1, hc2, ?_, ?_⟩
      · -- leaf sequence and chain shape
        have hpc : combIds (Node.inner K (C.set p child1), heap1, none)
            = A.flatMap Node.leafIds
              ++ (combIds (child1, heap1, none) ++ B.flatMap Node.leafIds) := by
          simp only [combIds, List.append_nil]
          rw [leafIds_inner, hsetE, List.flatMap_append, List.flatMap_cons]
        rcases IH3 with ⟨hl, hcomb, hr⟩ | ⟨hl, xs, idq, ys, hxs, hcomb, h1, h2, h3⟩
        · left
          refine ⟨hl, ?_, hr⟩
          rw [hpc, hcomb, hidsflat]
        · right
          refine ⟨hl, A.flatMap Node.leafIds ++ xs, idq, ys ++ B.flatMap Node.leafIds,
            ?_, ?_, h1, h2, h3⟩
          · rw [hidsflat, hxs]
            simp [List.append_assoc]
          · rw [hpc, hcomb]
            simp [List.append_assoc]
      · -- well-formedness and contents
        simp only []
        constructor
        · rw [NodeWf]
          refine ⟨hhpos, hKne, hKcap, ?_⟩
          rw [hsetE]
          refine cw_replace_trans A K B child lo hi child1 ?_ (by omega) htrans ?_
          · rw [← hdecomp]
            exact hcw
          · rw [hALen]
            exact hwc1
        · rw [contents_inner, hsetE, List.flatMap_append, List.flatMap_cons,
            hsameA, hsameB, hcontflat]
          have hstep : child1.contents heap1 ++ B.flatMap (Node.contents heap)
              |>.Perm ((⟨key, value⟩ :: child.contents heap)
                ++ B.flatMap (Node.contents heap)) :=
            hpermc.append_right _
          exact ((hstep.append_left _).trans List.perm_middle)
    · -- the child split: a pending (new node, separator) arrives here
      obtain ⟨hwc1, hwm, hnklo, hnkhi, hpermc⟩ := IH4
      have hCSlen : (C.set p child1).length = C.length := by simp
      have hinsE : (C.set p child1).insertIdx (p + 1) nn = A ++ child1 :: nn :: B := by
        rw [hsetE, ← hALen, append_cons_insertIdx]
      have hwc1' : NodeWf heap1 child1 (sepLo lo K A.length) (some nk) (h - 1) := by
        rw [hALen]
        exact hwc1
      have hwm' : NodeWf heap1 nn (some nk) (sepHi hi K A.length) (h - 1) := by
        rw [hALen]
        exact hwm
      have hcwD : ChildrenWf heap lo hi (h - 1) K (A ++ child :: B) := by
        rw [← hdecomp]
        exact hcw
      have cwFull : ChildrenWf heap1 lo hi (h - 1) (K.insertIdx p nk)
          (A ++ child1 :: nn :: B) := by
        rw [← hALen]
        exact cw_insert_trans A K B child lo hi child1 nn nk hcwD (by omega)
          htrans hwc1' hwm'
      have hchildComb : combIds (child1, heap1, some (nn, nk))
          = child1.leafIds ++ nn.leafIds := by
        simp [combIds]
      by_cases hfullK : InnerNode.IsFull K.length
      · -- this inner node is full: split it and promote the middle key
        have hK256 : K.length = 256 := by
          simpa [InnerNode.IsFull, leaf_slotmax] using hfullK
        set mid := K.length / 2 with hmid
        have hmidlt : mid < K.length := by omega
        have hskmem : K.getD mid 0 ∈ K := getD_mem_of_lt _ _ _ hmidlt
        have hskbnd := (nodeWf_inner_keys hwInner).2 _ hskmem
        by_cases hpmid : p ≤ mid
        · -- pending pair goes into the left half
          have hhs : InnerNode.handleSplit K (C.set p child1) p nn nk
              = (((K.take mid).insertIdx p nk,
                  ((C.set p child1).take (mid + 1)).insertIdx (p + 1) nn),
                 some (K.drop (mid + 1), (C.set p child1).drop (mid + 1),
                   K.getD mid 0)) := by
            rw [InnerNode.handleSplit]
            simp [hfullK, hpmid, InnerNode.InsertAt, ← hmid]
          have hout : (Node.inner K C).Insert heap key value
              = (.inner ((K.take mid).insertIdx p nk)
                   (((C.set p child1).take (mid + 1)).insertIdx (p + 1) nn),
                 heap1,
                 some (.inner (K.drop (mid + 1)) ((C.set p child1).drop (mid + 1)),
                   K.getD mid 0)) := by
            rw [Node.Insert, ← hp]
            rw [hCp]
            simp only [hres, hhs]
          rw [hout]
          have split := cw_split_sep (mid + 1) (K.insertIdx p nk)
            (A ++ child1 :: nn :: B) lo hi cwFull
            (by rw [List.length_insertIdx _ _ hpK]; omega)
          have eK1 : (K.insertIdx p nk).take (mid + 1) = (K.take mid).insertIdx p nk :=
            insertIdx_take K nk p mid hpmid hpK
          have eSk : (K.insertIdx p nk).getD (mid + 1) 0 = K.getD mid 0 :=
            getD_insertIdx_ge K nk 0 mid p hpmid hmidlt
          have eK2 : (K.insertIdx p nk).drop (mid + 2) = K.drop (mid + 1) :=
            insertIdx_drop K nk p (mid + 1) (by omega)
          have eC1 : (A ++ child1 :: nn :: B).take (mid + 2)
              = ((C.set p child1).take (mid + 1)).insertIdx (p + 1) nn := by
            rw [← hinsE]
            exact insertIdx_take (C.set p child1) nn (p + 1) (mid + 1) (by omega)
              (by rw [hCSlen]; omega)
          have eC2 : (A ++ child1 :: nn :: B).drop (mid + 2)
              = (C.set p child1).drop (mid + 1) := by
            rw [← hinsE]
            exact insertIdx_drop (C.set p child1) nn (p + 1) (mid + 1) (by omega)
          rw [eK1, eSk, eK2, eC1, eC2] at split
          have hcs12 : (((C.set p child1).take (mid + 1)).insertIdx (p + 1) nn)
              ++ (C.set p child1).drop (mid + 1) = A ++ child1 :: nn :: B := by
            rw [← eC1, ← eC2, List.take_append_drop]
          unfold InsertSpec
          refine ⟨IH1, hc2, ?_, ?_⟩
          · have hpc : combIds
                (Node.inner ((K.take mid).insertIdx p nk)
                   (((C.set p child1).take (mid + 1)).insertIdx (p + 1) nn),
                 heap1,
                 some (.inner (K.drop (mid + 1)) ((C.set p child1).drop (mid + 1)),
                   K.getD mid 0))
                = A.flatMap Node.leafIds
                  ++ (combIds (child1, heap1, some (nn, nk))
                      ++ B.flatMap Node.leafIds) := by
              simp only [combIds]
              rw [leafIds_inner, leafIds_inner, ← List.flatMap_append, hcs12,
                List.flatMap_append, List.flatMap_cons, List.flatMap_cons]
              simp [List.append_assoc]
            rcases IH3 with ⟨hl, hcomb, hr⟩ | ⟨hl, xs, idq, ys, hxs, hcomb, h1, h2, h3⟩
            · left
              refine ⟨hl, ?_, hr⟩
              rw [hpc, hcomb, hidsflat]
            · right
              refine ⟨hl, A.flatMap Node.leafIds ++ xs, idq,
                ys ++ B.flatMap Node.leafIds, ?_, ?_, h1, h2, h3⟩
              · rw [hidsflat, hxs]
                simp [List.append_assoc]
              · rw [hpc, hcomb]
                simp [List.append_assoc]
          · simp only []
            refine ⟨?_, ?_, hskbnd.1, hskbnd.2, ?_⟩
            · rw [NodeWf]
              refine ⟨hhpos, ?_, ?_, split.1⟩
              · intro hcontra
                have := congrArg List.length hcontra
                rw [List.length_insertIdx _ _ (by rw [List.length_take]; omega)] at this
                simp at this
              · rw [List.length_insertIdx _ _ (by rw [List.length_take]; omega),
                  List.length_take]
                simp only [leaf_slotmax]
                omega
            · rw [NodeWf]
              refine ⟨hhpos, ?_, ?_, split.2⟩
              · intro hcontra
                have := congrArg List.length hcontra
                rw [List.length_drop] at this
                simp at this
                omega
              · rw [List.length_drop]
                simp only [leaf_slotmax]
                omega
            · rw [contents_inner, contents_inner, ← List.flatMap_append, hcs12,
                List.flatMap_append, List.flatMap_cons, List.flatMap_cons,
                hsameA, hsameB, hcontflat]
              rw [← List.append_assoc (child1.contents heap1) (nn.contents heap1)]
              exact ((hpermc.append_right _).append_left _).trans List.perm_middle
        · -- pending pair goes into the new right half
          have hmidp : mid + 1 ≤ p := by omega
          have hhs : InnerNode.handleSplit K (C.set p child1) p nn nk
              = ((K.take mid, (C.set p child1).take (mid + 1)),
                 some ((K.drop (mid + 1)).insertIdx (p - (mid + 1)) nk,
                   ((C.set p child1).drop (mid + 1)).insertIdx (p - (mid + 1) + 1) nn,
                   K.getD mid 0)) := by
            rw [InnerNode.handleSplit]
            simp [hfullK, hpmid, InnerNode.InsertAt, ← hmid]
          have hout : (Node.inner K C).Insert heap key value
              = (.inner (K.take mid) ((C.set p child1).take (mid + 1)),
                 heap1,
                 some (.inner ((K.drop (mid + 1)).insertIdx (p - (mid + 1)) nk)
                     (((C.set p child1).drop (mid + 1)).insertIdx (p - (mid + 1) + 1) nn),
                   K.getD mid 0)) := by
            rw [Node.Insert, ← hp]
            rw [hCp]
            simp only [hres, hhs]
          rw [hout]
          have split := cw_split_sep mid (K.insertIdx p nk)
            (A ++ child1 :: nn :: B) lo hi cwFull
            (by rw [List.length_insertIdx _ _ hpK]; omega)
          have eK1 : (K.insertIdx p nk).take mid = K.take mid :=
            insertIdx_take_of_le K nk p mid (by omega)
          have eSk : (K.insertIdx p nk).getD mid 0 = K.getD mid 0 :=
            getD_insertIdx_lt K nk 0 mid p (by omega) hpK
          have eK2 : (K.insertIdx p nk).drop (mid + 1)
              = (K.drop (mid + 1)).insertIdx (p - (mid + 1)) nk :=
            insertIdx_drop_of_le K nk p (mid + 1) hmidp hpK
          have eC1 : (A ++ child1 :: nn :: B).take (mid + 1)
              = (C.set p child1).take (mid + 1) := by
            rw [← hinsE]
            exact insertIdx_take_of_le (C.set p child1) nn (p + 1) (mid + 1) (by omega)
          have eC2 : (A ++ child1 :: nn :: B).drop (mid + 1)
              = ((C.set p child1).drop (mid + 1)).insertIdx (p - (mid + 1) + 1) nn := by
            rw [← hinsE]
            rw [insertIdx_drop_of_le (C.set p child1) nn (p + 1) (mid + 1) (by omega)
              (by rw [hCSlen]; omega)]
            congr 1
            omega
          rw [eK1, eSk, eK2, eC1, eC2] at split
          have hcs12 : (C.set p child1).take (mid + 1)
              ++ (((C.set p child1).drop (mid + 1)).insertIdx (p - (mid + 1) + 1) nn)
              = A ++ child1 :: nn :: B := by
            rw [← eC1, ← eC2, List.take_append_drop]
          unfold InsertSpec
          refine ⟨IH1, hc2, ?_, ?_⟩
          · have hpc : combIds
                (Node.inner (K.take mid) ((C.set p child1).take (mid + 1)),
                 heap1,
                 some (.inner ((K.drop (mid + 1)).insertIdx (p - (mid + 1)) nk)
                     (((C.set p child1).drop (mid + 1)).insertIdx (p - (mid + 1) + 1) nn),
                   K.getD mid 0))
                = A.flatMap Node.leafIds
                  ++ (combIds (child1, heap1, some (nn, nk))
                      ++ B.flatMap Node.leafIds) := by
              simp only [combIds]
              rw [leafIds_inner, leafIds_inner, ← List.flatMap_append, hcs12,
                List.flatMap_append, List.flatMap_cons, List.flatMap_cons]
              simp [List.append_assoc]
            rcases IH3 with ⟨hl, hcomb, hr⟩ | ⟨hl, xs, idq, ys, hxs, hcomb, h1, h2, h3⟩
            · left
              refine ⟨hl, ?_, hr⟩
              rw [hpc, hcomb, hidsflat]
            · right
              refine ⟨hl, A.flatMap Node.leafIds ++ xs, idq,
                ys ++ B.flatMap Node.leafIds, ?_, ?_, h1, h2, h3⟩
              · rw [hidsflat, hxs]
                simp [List.append_assoc]
              · rw [hpc, hcomb]
                simp [List.append_assoc]
          · simp only []
            refine ⟨?_, ?_, hskbnd.1, hskbnd.2, ?_⟩
            · rw [NodeWf]
              refine ⟨hhpos, ?_, ?_, split.1⟩
              · intro hcontra
                have := congrArg List.length hcontra
                rw [List.length_take, List.length_nil] at this
                omega
              · rw [List.length_take]
                simp only [leaf_slotmax]
                omega
            · rw [NodeWf]
              refine ⟨hhpos, ?_, ?_, split.2⟩
              · intro hcontra
                have := congrArg List.length hcontra
                rw [List.length_insertIdx _ _ (by rw [List.length_drop]; omega)] at this
                simp at this
              · rw [List.length_insertIdx _ _ (by rw [List.length_drop]; omega),
                  List.length_drop]
                simp only [leaf_slotmax]
                omega
            · rw [contents_inner, contents_inner, ← List.flatMap_append, hcs12,
                List.flatMap_append, List.flatMap_cons, List.flatMap_cons,
                hsameA, hsameB, hcontflat]
              rw [← List.append_assoc (child1.contents heap1) (nn.contents heap1)]
              exact ((hpermc.append_right _).append_left _).trans List.perm_middle
      · -- this inner node is not full: absorb the pending pair in place
        have hhs : InnerNode.handleSplit K (C.set p child1) p nn nk
            = ((K.insertIdx p nk, (C.set p child1).insertIdx (p + 1) nn), none) := by
          rw [InnerNode.handleSplit]
          simp [hfullK, InnerNode.InsertAt]
        have hout : (Node.inner K C).Insert heap key value
            = (.inner (K.insertIdx p nk) ((C.set p child1).insertIdx (p + 1) nn),
               heap1, none) := by
          rw [Node.Insert, ← hp]
          rw [hCp]
          simp only [hres, hhs]
        rw [hout]
        have hKne256 : K.length ≠ 256 := by
          intro hcontra
          exact hfullK (by simp [InnerNode.IsFull, leaf_slotmax, hcontra])
        unfold InsertSpec
        refine ⟨IH1, hc2, ?_, ?_⟩
        · have hpc : combIds
              (Node.inner (K.insertIdx p nk) ((C.set p child1).insertIdx (p + 1) nn),
               heap1, none)
              = A.flatMap Node.leafIds
                ++ (combIds (child1, heap1, some (nn, nk))
                    ++ B.flatMap Node.leafIds) := by
            simp only [combIds, List.append_nil]
            rw [leafIds_inner, hinsE, List.flatMap_append, List.flatMap_cons,
              List.flatMap_cons]
            simp [List.append_assoc]
          rcases IH3 with ⟨hl, hcomb, hr⟩ | ⟨hl, xs, idq, ys, hxs, hcomb, h1, h2, h3⟩
          · left
            refine ⟨hl, ?_, hr⟩
            rw [hpc, hcomb, hidsflat]
          · right
            refine ⟨hl, A.flatMap Node.leafIds ++ xs, idq,
              ys ++ B.flatMap Node.leafIds, ?_, ?_, h1, h2, h3⟩
            · rw [hidsflat, hxs]
              simp [List.append_assoc]
            · rw [hpc, hcomb]
              simp [List.append_assoc]
        · simp only []
          constructor
          · rw [NodeWf]
            refine ⟨hhpos, ?_, ?_, ?_⟩
            · intro hcontra
              have := congrArg List.length hcontra
              rw [List.length_insertIdx _ _ hpK] at this
              simp at this
            · rw [List.length_insertIdx _ _ hpK]
              simp only [leaf_slotmax] at hKcap hKne256 ⊢
              omega
            · rw [hinsE]
              exact cwFull
          · rw [contents_inner, hinsE, List.flatMap_append, List.flatMap_cons,
              List.flatMap_cons, hsameA, hsameB, hcontflat]
            rw [← List.append_assoc (child1.contents heap1) (nn.contents heap1)]
            exact ((hpermc.append_right _).append_left _).trans List.perm_middle

/-! ## The sibling chain -/

/-- The forward sibling chain: consecutive leaves are linked by
`right_sibling`, and the last leaf's `right_sibling` is null. -/
def chainOk (heap : Heap) : List Nat → Prop
  | [] => True
  | [i] => (hget heap i).right_sibling = none
  | i :: j :: rest => (hget heap i).right_sibling = some j ∧ chainOk heap (j :: rest)

/-- `chainOk` only looks at the `right_sibling` fields of its members. -/
theorem chainOk_congr {heap heap' : Heap} :
    ∀ (l : List Nat),
      (∀ j ∈ l, (hget heap' j).right_sibling = (hget heap j).right_sibling) →
      chainOk heap l → chainOk heap' l
  | [], _, _ => trivial
  | [i], hrs, hc => by
    rw [chainOk] at hc ⊢
    rw [hrs i (by simp)]
    exact hc
  | i :: j :: rest, hrs, hc => by
    rw [chainOk] at hc ⊢
    exact ⟨by rw [hrs i (by simp)]; exact hc.1,
      chainOk_congr (j :: rest) (fun a ha => hrs a (by simp [List.mem_cons] at ha ⊢; tauto))
        hc.2⟩

theorem chainOk_cons_ne {heap : Heap} {a : Nat} {l : List Nat} (hne : l ≠ []) :
    chainOk heap (a :: l)
      ↔ (hget heap a).right_sibling = some (l.headD 0) ∧ chainOk heap l := by
  match l, hne with
  | b :: l', _ => rw [chainOk, List.headD_cons]

/-- Splicing a fresh leaf right after `id` preserves the chain. -/
theorem chainOk_splice {heap heap1 : Heap} {id newId : Nat} {ys : List Nat}
    (h1 : (hget heap1 id).right_sibling = some newId)
    (h2 : (hget heap1 newId).right_sibling = (hget heap id).right_sibling)
    (h3 : ∀ j, j ≠ id → j ≠ newId →
      (hget heap1 j).right_sibling = (hget heap j).right_sibling) :
    ∀ (xs : List Nat),
      chainOk heap (xs ++ id :: ys) →
      (xs ++ id :: ys).Nodup →
      (∀ j ∈ xs ++ id :: ys, j < newId) →
      chainOk heap1 (xs ++ id :: newId :: ys)
  | [], hchain, hnd, hlt => by
    rw [List.nil_append] at hchain hnd hlt ⊢
    rw [chainOk]
    refine ⟨h1, ?_⟩
    match ys, hchain, hnd with
    | [], hchain, _ =>
      rw [chainOk] at hchain ⊢
      rw [h2]
      exact hchain
    | y :: ys', hchain, hnd =>
      rw [chainOk] at hchain ⊢
      refine ⟨by rw [h2]; exact hchain.1, ?_⟩
      refine chainOk_congr (y :: ys') ?_ hchain.2
      intro j hj
      refine h3 j ?_ ?_
      · intro he
        subst he
        exact (List.nodup_cons.mp hnd).1 hj
      · intro he
        subst he
        exact absurd (hlt j (by simp [List.mem_cons] at hj ⊢; tauto)) (lt_irrefl _)
  | x :: xs, hchain, hnd, hlt => by
    rw [List.cons_append] at hchain hnd ⊢
    rw [chainOk_cons_ne (by simp)] at hchain
    rw [chainOk_cons_ne (by simp)]
    obtain ⟨hx, hrest⟩ := hchain
    have hxlt : x < newId := hlt x (by simp)
    refine ⟨?_, chainOk_splice h1 h2 h3 xs hrest (List.nodup_cons.mp hnd).2
      (fun j hj => hlt j (List.mem_cons_of_mem x hj))⟩
    rw [h3 x ?_ ?_]
    · rw [hx]
      congr 1
      cases xs <;> simp
    · intro he
      subst he
      exact (List.nodup_cons.mp hnd).1 (by simp)
    · intro he
      subst he
      exact absurd hxlt (lt_irrefl _)

/-- Splicing a fresh element keeps the sequence duplicate-free. -/
theorem nodup_splice {xs ys : List Nat} {id w : Nat}
    (hnd : (xs ++ id :: ys).Nodup) (hw : w ∉ xs ++ id :: ys) :
    (xs ++ id :: w :: ys).Nodup := by
  rw [List.nodup_append] at hnd ⊢
  obtain ⟨h1, h2, h3⟩ := hnd
  simp only [List.mem_append, List.mem_cons, not_or] at hw
  rw [List.nodup_cons] at h2 ⊢
  rw [List.nodup_cons]
  rw [List.disjoint_cons_right] at h3 ⊢
  rw [List.disjoint_cons_right]
  simp only [List.mem_cons, not_or]
  refine ⟨h1, ⟨⟨fun he => hw.2.1 he.symm, h2.1⟩, hw.2.2, h2.2⟩, h3.1, hw.1, h3.2⟩

/-- The `Nodup` and chain invariants survive one `node::Insert` step, given
the leaf-sequence shape reported by `InsertSpec`. -/
theorem chain_shape_step {heap heap1 : Heap} {ids L : List Nat}
    (hlt : ∀ i ∈ ids, i < heap.length)
    (hnd : ids.Nodup) (hchain : chainOk heap ids)
    (hshape :
      (heap1.length = heap.length ∧ L = ids
        ∧ ∀ j, (hget heap1 j).right_sibling = (hget heap j).right_sibling)
      ∨ (heap1.length = heap.length + 1
        ∧ ∃ xs id ys, ids = xs ++ id :: ys
            ∧ L = xs ++ id :: heap.length :: ys
            ∧ (hget heap1 id).right_sibling = some heap.length
            ∧ (hget heap1 heap.length).right_sibling = (hget heap id).right_sibling
            ∧ ∀ j, j ≠ id → j ≠ heap.length →
                (hget heap1 j).right_sibling = (hget heap j).right_sibling)) :
    L.Nodup ∧ chainOk heap1 L := by
  rcases hshape with ⟨-, rfl, hrs⟩ | ⟨-, xs, id, ys, hids, hL, h1, h2, h3⟩
  · exact ⟨hnd, chainOk_congr _ (fun j _ => hrs j) hchain⟩
  · subst hids
    subst hL
    refine ⟨nodup_splice hnd ?_, chainOk_splice h1 h2 h3 xs hchain hnd hlt⟩
    intro hmem
    exact absurd (hlt _ hmem) (lt_irrefl _)

/-! ## The full scan -/

theorem iterScan_end {heap : Heap} {it : ForwardIterator}
    (h : it.IsEnd heap = true) : ∀ fuel, iterScan heap fuel it = []
  | 0 => by rw [iterScan]
  | fuel + 1 => by rw [iterScan, if_pos h]

/-- Walking the iterator along a well-formed sibling chain yields the
remaining pairs of the current leaf followed by the pairs of every later
leaf, for any sufficient fuel. -/
theorem iterScan_chain {heap : Heap} :
    ∀ (fuel : Nat) (i : Nat) (ids : List Nat) (s : Nat) (kv : KeyValue),
      chainOk heap (i :: ids) →
      (∀ j ∈ i :: ids, (hget heap j).keys ≠ []
        ∧ (hget heap j).values.length = (hget heap j).keys.length) →
      s < (hget heap i).keys.length →
      ((contentsOf heap i).drop s ++ ids.flatMap (contentsOf heap)).length ≤ fuel →
      iterScan heap fuel ⟨some i, s, kv⟩
        = (contentsOf heap i).drop s ++ ids.flatMap (contentsOf heap) := by
  intro fuel
  induction fuel with
  | zero =>
    intro i ids s kv hchain hleaf hs hlen
    have hcl : (contentsOf heap i).length = (hget heap i).keys.length := by
      unfold contentsOf
      rw [List.length_zipWith, (hleaf i (by simp)).2, Nat.min_self]
    rw [List.length_append, List.length_drop] at hlen
    omega
  | succ fuel ih =>
    intro i ids s kv hchain hleaf hs hlen
    have hcl : (contentsOf heap i).length = (hget heap i).keys.length := by
      unfold contentsOf
      rw [List.length_zipWith, (hleaf i (by simp)).2, Nat.min_self]
    have hdec : decide ((hget heap i).keys.length ≤ s) = false := by
      simp only [decide_eq_false_iff_not]
      omega
    have hend : ∀ z : KeyValue, ForwardIterator.IsEnd ⟨some i, s, z⟩ heap = false := by
      intro z
      simp only [ForwardIterator.IsEnd, hdec, Bool.and_false]
    have hendne : ∀ z : KeyValue, ¬ ForwardIterator.IsEnd ⟨some i, s, z⟩ heap = true := by
      intro z
      rw [hend z]
      exact Bool.false_ne_true
    have hsc : s < (contentsOf heap i).length := by omega
    have hkvI : (contentsOf heap i)[s]
        = ⟨(hget heap i).keys.getD s 0, (hget heap i).values.getD s 0⟩ := by
      unfold contentsOf
      rw [List.getElem_zipWith]
      have hsv : s < (hget heap i).values.length := by
        rw [(hleaf i (by simp)).2]
        omega
      rw [getD_eq_getElem' _ _ hs, getD_eq_getElem' _ _ hsv]
    have hderef : ForwardIterator.Dereference ⟨some i, s, kv⟩ heap
        = (⟨some i, s, (contentsOf heap i)[s]⟩, .ok ((contentsOf heap i)[s])) := by
      rw [ForwardIterator.Dereference, if_neg (hendne kv), hkvI]
      rfl
    rw [iterScan, if_neg (hendne kv)]
    simp only [hderef]
    have hdropcons : (contentsOf heap i).drop s
        = (contentsOf heap i)[s] :: (contentsOf heap i).drop (s + 1) :=
      (List.getElem_cons_drop _ _ hsc).symm
    by_cases hstep : s + 1 < (hget heap i).keys.length
    · have hadv : (ForwardIterator.Advance ⟨some i, s, (contentsOf heap i)[s]⟩ heap).1
          = ⟨some i, s + 1, (contentsOf heap i)[s]⟩ := by
        rw [ForwardIterator.Advance, if_neg (hendne _)]
        simp [hstep]
      rw [hadv, ih i ids (s + 1) _ hchain hleaf hstep (by
        rw [List.length_append, List.length_drop] at hlen ⊢
        omega)]
      rw [hdropcons]
      rfl
    · have hadv : (ForwardIterator.Advance ⟨some i, s, (contentsOf heap i)[s]⟩ heap).1
          = ⟨(hget heap i).right_sibling, 0, (contentsOf heap i)[s]⟩ := by
        rw [ForwardIterator.Advance, if_neg (hendne _)]
        simp [hstep]
      have hdropnil : (contentsOf heap i).drop (s + 1) = [] := by
        rw [List.drop_eq_nil_iff]
        omega
      rw [hadv]
      match ids, hchain, hleaf with
      | [], hchain, _ =>
        rw [chainOk] at hchain
        rw [hchain]
        have : ForwardIterator.IsEnd ⟨none, 0, (contentsOf heap i)[s]⟩ heap = true := by
          rw [ForwardIterator.IsEnd]
        rw [iterScan_end this fuel, hdropcons, hdropnil]
        rfl
      | j :: rest, hchain, hleaf =>
        rw [chainOk] at hchain
        rw [hchain.1]
        have hj0 : 0 < (hget heap j).keys.length :=
          List.length_pos.mpr (hleaf j (by simp)).1
        have hrec := ih j rest 0 ((contentsOf heap i)[s]) hchain.2
          (fun a ha => hleaf a (List.mem_cons_of_mem i ha)) hj0 (by
            rw [List.length_append, List.length_drop, List.flatMap_cons,
              List.length_append] at hlen
            rw [List.drop_zero, List.length_append]
            omega)
        rw [hrec, hdropcons, hdropnil, List.flatMap_cons, List.drop_zero]
        rfl

/-! ## The tree-level invariant -/

/-- Invariant of a reachable `BPlusTree` state: the empty tree has no root
and no allocated leaves; otherwise the root is well-formed at some uniform
leaf depth with unbounded key range, the leaf pointers are pairwise
distinct, and the forward sibling chain links them in leaf order. -/
def TreeInv (t : BPlusTree) : Prop :=
  match t.root with
  | none => t.heap = []
  | some r => ∃ h, NodeWf t.heap r none none h ∧ r.leafIds.Nodup
      ∧ chainOk t.heap r.leafIds

theorem treeInv_empty : TreeInv BPlusTree.empty := rfl

/-- The very first insert allocates the root leaf and stores the pair
(`BPlusTree::Insert`, lines 549-560). -/
theorem insert_empty (key value : Int) (u : Bool) :
    (BPlusTree.mk [] none).Insert key value u
      = ⟨[⟨[key], [value], none, none⟩], some (.leafRef 0)⟩ := by
  have hfull : (default : LeafNode).IsFull = false := rfl
  have hins : (default : LeafNode).Insert key value
      = (⟨[key], [value], none, none⟩, none) := by
    rw [LeafNode.insert_nonfull _ _ _ hfull]
    rfl
  have hheap : heapLeafInsert [default] 0 key value
      = ([⟨[key], [value], none, none⟩], none) := by
    rw [heapLeafInsert]
    simp only [show hget [(default : LeafNode)] 0 = default from rfl, hins]
    rfl
  have hnode : (Node.leafRef 0).Insert [default] key value
      = (.leafRef 0, [⟨[key], [value], none, none⟩], none) := by
    rw [Node.Insert, hheap]
  rw [BPlusTree.Insert]
  simp only [List.length_nil, List.nil_append]
  rw [hnode]

/-- `BPlusTree::Insert` preserves the invariant and adds exactly the new
pair to the stored multiset. -/
theorem tree_insert_inv (t : BPlusTree) (key value : Int) (u : Bool)
    (hinv : TreeInv t) :
    TreeInv (t.Insert key value u)
    ∧ ((t.Insert key value u).contents).Perm (⟨key, value⟩ :: t.contents) := by
  obtain ⟨heap, root⟩ := t
  match root with
  | none =>
    have hheap : heap = [] := hinv
    subst hheap
    rw [insert_empty]
    refine ⟨⟨0, ?_, by simp [leafIds_leaf], ?_⟩, ?_⟩
    · rw [NodeWf]
      refine ⟨rfl, ?_⟩
      unfold leafWf
      refine ⟨by simp, by simp [hget], by simp [hget, leaf_slotmax],
        by simp [hget], by simp [hget], ?_, ?_⟩
      · intro k hk a ha
        simp at ha
      · intro k hk b hb
        simp at hb
    · rw [leafIds_leaf, chainOk]
      rfl
    · simp [BPlusTree.contents, Node.contents, leafIds_leaf, contentsOf, hget]
  | some r =>
    obtain ⟨h, hwf, hnd, hchain⟩ := hinv
    have hlo : loOk none key := fun a ha => nomatch ha
    have hhi : hiStrict none key := fun b hb => nomatch hb
    have hspec := insert_spec r heap key value none none h hwf hnd hlo hhi
    rcases hout : r.Insert heap key value with ⟨root1, heap1, rr⟩
    rw [hout] at hspec
    unfold InsertSpec at hspec
    obtain ⟨hs1, hs2, hs3, hs4⟩ := hspec
    simp only [] at hs1 hs2 hs3 hs4
    have hlt : ∀ i ∈ r.leafIds, i < heap.length :=
      fun i hi => (nodeWf_leaf_facts r heap none none h hwf i hi).1
    match rr, hs3, hs4 with
    | none, hs3, hs4 =>
      have hins : (BPlusTree.mk heap (some r)).Insert key value u
          = ⟨heap1, some root1⟩ := by
        rw [BPlusTree.Insert]
        simp only []
        rw [hout]
      rw [hins]
      have hcomb : combIds (root1, heap1, none) = root1.leafIds := by
        simp [combIds]
      rw [hcomb] at hs3
      obtain ⟨hndL, hchainL⟩ := chain_shape_step hlt hnd hchain hs3
      refine ⟨⟨h, hs4.1, hndL, hchainL⟩, ?_⟩
      simp only [BPlusTree.contents]
      exact hs4.2
    | some (m, sk), hs3, hs4 =>
      have hins : (BPlusTree.mk heap (some r)).Insert key value u
          = ⟨heap1, some (.inner [sk] [root1, m])⟩ := by
        rw [BPlusTree.Insert]
        simp only []
        rw [hout]
      rw [hins]
      obtain ⟨hw1, hw2, hsklo, hskhi, hperm⟩ := hs4
      have hcomb : combIds (root1, heap1, some (m, sk))
          = root1.leafIds ++ m.leafIds := by
        simp [combIds]
      rw [hcomb] at hs3
      obtain ⟨hndL, hchainL⟩ := chain_shape_step hlt hnd hchain hs3
      have hids : (Node.inner [sk] [root1, m]).leafIds
          = root1.leafIds ++ m.leafIds := by
        rw [leafIds_inner]
        simp
      refine ⟨⟨h + 1, ?_, by rw [hids]; exact hndL, by rw [hids]; exact hchainL⟩, ?_⟩
      · rw [NodeWf]
        refine ⟨by omega, by simp, by simp [leaf_slotmax], ?_⟩
        have he : h + 1 - 1 = h := by omega
        rw [he]
        exact cw_cons_mk hw1 (cw_nil_mk hw2)
      · simp only [BPlusTree.contents]
        rw [contents_inner]
        simp only [List.flatMap_cons, List.flatMap_nil, List.append_nil]
        exact hperm

/-- Insert sequences from a valid state keep the invariant and accumulate
exactly the inserted pairs. -/
theorem build_inv_aux :
    ∀ (ops : List (Int × Int)) (t : BPlusTree), TreeInv t →
      TreeInv (ops.foldl (fun t kv => t.Insert kv.1 kv.2) t)
      ∧ ((ops.foldl (fun t kv => t.Insert kv.1 kv.2) t).contents).Perm
          ((ops.map fun p => (⟨p.1, p.2⟩ : KeyValue)) ++ t.contents)
  | [], t, hinv => ⟨hinv, by simp⟩
  | op :: ops, t, hinv => by
    obtain ⟨hinv1, hperm1⟩ := tree_insert_inv t op.1 op.2 false hinv
    obtain ⟨hinv2, hperm2⟩ := build_inv_aux ops (t.Insert op.1 op.2) hinv1
    refine ⟨hinv2, ?_⟩
    refine hperm2.trans ?_
    simp only [List.map_cons, List.cons_append]
    exact (List.Perm.append_left _ hperm1).trans List.perm_middle

theorem build_inv (ops : List (Int × Int)) :
    TreeInv (BPlusTree.build ops)
    ∧ (BPlusTree.build ops).contents.Perm
        (ops.map fun p => (⟨p.1, p.2⟩ : KeyValue)) := by
  obtain ⟨h1, h2⟩ := build_inv_aux ops BPlusTree.empty treeInv_empty
  refine ⟨h1, ?_⟩
  simpa [BPlusTree.empty, BPlusTree.contents] using h2

/-- On a valid state, a full scan from `Begin()` with sufficient fuel
yields exactly the stored pairs in leaf order. -/
theorem tree_scan (t : BPlusTree) (hinv : TreeInv t) (fuel : Nat)
    (hfuel : t.contents.length ≤ fuel) :
    iterScan t.heap fuel t.Begin = t.contents := by
  obtain ⟨heap, root⟩ := t
  match root with
  | none =>
    have hend : (BPlusTree.mk heap none).Begin.IsEnd heap = true := by
      rw [BPlusTree.Begin, BPlusTree.GetFirstLeaf]
      rfl
    rw [iterScan_end hend fuel]
    simp [BPlusTree.contents]
  | some r =>
    obtain ⟨h, hwf, hnd, hchain⟩ := hinv
    obtain ⟨i, ids, hids⟩ : ∃ i ids, r.leafIds = i :: ids := by
      match hL : r.leafIds, nodeWf_leafIds_ne_nil r heap none none h hwf with
      | x :: xs, _ => exact ⟨x, xs, rfl⟩
    have hbegin : (BPlusTree.mk heap (some r)).Begin = ⟨some i, 0, default⟩ := by
      rw [BPlusTree.Begin, BPlusTree.GetFirstLeaf]
      simp only []
      rw [nodeWf_firstLeaf r heap none none h hwf, hids]
      rfl
    have hcontents : (BPlusTree.mk heap (some r)).contents
        = contentsOf heap i ++ ids.flatMap (contentsOf heap) := by
      simp only [BPlusTree.contents, Node.contents, hids, List.flatMap_cons]
    have hfacts : ∀ j ∈ i :: ids, (hget heap j).keys ≠ []
        ∧ (hget heap j).values.length = (hget heap j).keys.length := by
      intro j hj
      have := nodeWf_leaf_facts r heap none none h hwf j (by rw [hids]; exact hj)
      exact ⟨this.2.1, this.2.2⟩
    have hi0 : 0 < (hget heap i).keys.length :=
      List.length_pos.mpr (hfacts i (by simp)).1
    have hlen : ((contentsOf heap i).drop 0 ++ ids.flatMap (contentsOf heap)).length
        ≤ fuel := by
      rw [List.drop_zero, ← hcontents]
      exact hfuel
    rw [hbegin, iterScan_chain fuel i ids 0 default (hids ▸ hchain) hfacts hi0 hlen]
    rw [List.drop_zero, hcontents]

/-! ## Height and depth uniformity -/

/-- Structural height of a subtree (leaves at height 0). -/
def Node.height : Node → Nat
  | .leafRef _ => 0
  | .inner _ children => (children.attach.map fun c => c.1.height).foldr max 0 + 1
termination_by n => sizeOf n
decreasing_by
  have := List.sizeOf_lt_of_mem c.2
  simp only [Node.inner.sizeOf_spec]
  omega

theorem foldr_max_const :
    ∀ (l : List Nat) (v : Nat), l ≠ [] → (∀ x ∈ l, x = v) → l.foldr max 0 = v
  | [x], v, _, hall => by simp [hall x (by simp)]
  | x :: y :: l, v, _, hall => by
    rw [List.foldr_cons,
      foldr_max_const (y :: l) v (by simp)
        (fun a ha => hall a (List.mem_cons_of_mem x ha)),
      hall x (by simp)]
    simp

/-- On a well-formed subtree the structural height is the uniform leaf
depth. -/
theorem nodeWf_height :
    ∀ (n : Node) (heap : Heap) (lo hi : Option Int) (h : Nat),
      NodeWf heap n lo hi h → n.height = h := by
  refine Node.strongInd ?_
  intro n ih heap lo hi h hw
  match n with
  | .leafRef i =>
    rw [NodeWf] at hw
    rw [Node.height, hw.1]
  | .inner K C =>
    rw [NodeWf] at hw
    obtain ⟨hpos, hne, -, hcw⟩ := hw
    have hClen : C.length = K.length + 1 := cw_length hcw
    have hCne : C ≠ [] := by
      intro hc
      rw [hc] at hClen
      simp at hClen
    rw [Node.height]
    rw [foldr_max_const _ (h - 1) ?_ ?_]
    · omega
    · simp [hCne]
    · intro x hx
      simp only [List.mem_map, List.mem_attach, true_and] at hx
      obtain ⟨⟨c, hcC⟩, rfl⟩ := hx
      obtain ⟨lo', hi', hwc⟩ := cw_mem hcw c hcC
      exact ih c (sizeOf_child_lt hcC) heap lo' hi' (h - 1) hwc

/-- The per-tree leaf-depth sequence (empty tree: no leaves). -/
def BPlusTree.leafDepths (t : BPlusTree) : List Nat :=
  match t.root with
  | none => []
  | some r => r.leafDepths

theorem pairwise_eq_of_all_eq {L : List Nat} {v : Nat} (ha : ∀ d ∈ L, d = v) :
    L.Pairwise (· = ·) := by
  induction L with
  | nil => exact List.Pairwise.nil
  | cons a l ih =>
    refine List.Pairwise.cons ?_ (ih fun d hd => ha d (List.mem_cons_of_mem a hd))
    intro b hb
    rw [ha a (by simp), ha b (List.mem_cons_of_mem a hb)]

/-! ## Sorted permutations are unique -/

/-- A weakly sorted list that is a permutation of a strictly sorted list is
that list. -/
theorem perm_sorted_unique :
    ∀ (l l' : List KeyValue), l.Perm l' →
      (l.map KeyValue.key).Pairwise (· ≤ ·) →
      (l'.map KeyValue.key).Pairwise (· < ·) → l = l'
  | l, [], hp, _, _ => List.perm_nil.mp hp
  | l, a :: r, hp, hs, hs' => by
    match l, hp, hs with
    | [], hp, _ => exact absurd (List.nil_perm.mp hp) (by simp)
    | b :: t, hp, hs =>
      have hba : b = a := by
        by_contra hne
        have hbmem : b ∈ a :: r := hp.mem_iff.mp (by simp)
        have hamem : a ∈ b :: t := hp.mem_iff.mpr (by simp)
        rw [List.mem_cons] at hbmem hamem
        have hbr : b ∈ r := hbmem.resolve_left hne
        have hat : a ∈ t := hamem.resolve_left (fun he => hne he.symm)
        rw [List.map_cons, List.pairwise_cons] at hs hs'
        have h1 : a.key < b.key := hs'.1 b.key (List.mem_map_of_mem _ hbr)
        have h2 : b.key ≤ a.key := hs.1 a.key (List.mem_map_of_mem _ hat)
        omega
      subst hba
      have htr : t.Perm r := hp.cons_inv
      rw [List.map_cons, List.pairwise_cons] at hs hs'
      rw [perm_sorted_unique t r htr hs.2 hs'.2]

theorem zipWith_mk_map_self (f : Nat → Int) :
    ∀ (l : List Nat), List.zipWith KeyValue.mk (l.map f) (l.map f)
      = l.map fun i => ⟨f i, f i⟩
  | [] => rfl
  | x :: l => by
    rw [List.map_cons, List.zipWith_cons_cons, zipWith_mk_map_self f l,
      List.map_cons]

/-! ## Ascending inserts into a single leaf root -/

theorem ffge_all (key : Int) (ks : List Int) (hall : ∀ x ∈ ks, ¬ key < x) :
    FindFirstGreaterOrEqual key ks = ks.length := by
  by_contra hne
  have hlt : FindFirstGreaterOrEqual key ks < ks.length :=
    lt_of_le_of_ne (ffge_le_length key ks) hne
  exact hall _ (getD_mem_of_lt ks _ 0 hlt) (ffge_lt key ks hlt)

/-- Inserting a key larger than every stored key into a tree whose root is a
single non-full leaf appends the pair at the end of that leaf. -/
theorem insert_single_leaf (l : LeafNode) (key value : Int) (u : Bool)
    (hlen : l.keys.length < 256)
    (hvlen : l.values.length = l.keys.length)
    (hall : ∀ x ∈ l.keys, x < key) :
    (BPlusTree.mk [l] (some (.leafRef 0))).Insert key value u
      = ⟨[{ l with keys := l.keys ++ [key], values := l.values ++ [value] }],
         some (.leafRef 0)⟩ := by
  have hfull : l.IsFull = false := by
    simp only [LeafNode.IsFull, leaf_slotmax, beq_eq_false_iff_ne, ne_eq]
    omega
  have hffge : FindFirstGreaterOrEqual key l.keys = l.keys.length :=
    ffge_all key l.keys (fun x hx => lt_asymm (hall x hx))
  have hins : l.Insert key value
      = ({ l with keys := l.keys ++ [key], values := l.values ++ [value] },
         none) := by
    rw [LeafNode.insert_nonfull _ _ _ hfull, LeafNode.InsertAt, hffge,
      List.insertIdx_length_self, ← hvlen, List.insertIdx_length_self]
  have hheap : heapLeafInsert [l] 0 key value
      = ([{ l with keys := l.keys ++ [key], values := l.values ++ [value] }],
         none) := by
    rw [heapLeafInsert]
    simp only [show hget [l] 0 = l from rfl, hins]
    rfl
  have hnode : (Node.leafRef 0).Insert [l] key value
      = (.leafRef 0,
         [{ l with keys := l.keys ++ [key], values := l.values ++ [value] }],
         none) := by
    rw [Node.Insert, hheap]
  rw [BPlusTree.Insert]
  simp only []
  rw [hnode]

/-- Inserting `(0,0), (1,1), ..., (n-1, n-1)` in ascending order. -/
def ascOps (n : Nat) : List (Int × Int) :=
  (List.range n).map fun i => (Int.ofNat i, Int.ofNat i)

/-- Up to 256 ascending inserts all land in the original root leaf. -/
theorem build_ascending :
    ∀ (n : Nat), 1 ≤ n → n ≤ 256 →
      BPlusTree.build (ascOps n)
        = ⟨[⟨(List.range n).map Int.ofNat, (List.range n).map Int.ofNat,
             none, none⟩],
           some (.leafRef 0)⟩
  | 1, _, _ => by
    have h1 : BPlusTree.build (ascOps 1)
        = BPlusTree.empty.Insert (Int.ofNat 0) (Int.ofNat 0) := rfl
    rw [h1, show BPlusTree.empty = BPlusTree.mk [] none from rfl, insert_empty]
    rfl
  | n + 2, _, h2 => by
    have hsplit : ascOps (n + 2)
        = ascOps (n + 1) ++ [(Int.ofNat (n + 1), Int.ofNat (n + 1))] := by
      rw [ascOps, ascOps, List.range_succ, List.map_append]
      rfl
    have hfold : BPlusTree.build (ascOps (n + 2))
        = (BPlusTree.build (ascOps (n + 1))).Insert (Int.ofNat (n + 1))
            (Int.ofNat (n + 1)) := by
      rw [hsplit, BPlusTree.build, BPlusTree.build, List.foldl_append]
      rfl
    rw [hfold, build_ascending (n + 1) (by omega) (by omega)]
    rw [insert_single_leaf _ _ _ _ ?_ ?_ ?_]
    · rw [List.range_succ (n + 1), List.map_append]
      rfl
    · simp only [List.length_map, List.length_range]
      omega
    · simp only [List.length_map]
    · intro x hx
      simp only [List.mem_map, List.mem_range] at hx
      obtain ⟨i, hi, rfl⟩ := hx
      exact Int.ofNat_lt.mpr hi

/-! ## Claim theorems on full insert sequences -/

theorem treeInv_contents_sorted (t : BPlusTree) (hinv : TreeInv t) :
    (t.contents.map KeyValue.key).Pairwise (· ≤ ·) := by
  obtain ⟨heap, root⟩ := t
  match root with
  | none => simp [BPlusTree.contents]
  | some r =>
    obtain ⟨h, hwf, -, -⟩ := hinv
    simp only [BPlusTree.contents]
    exact (nodeWf_contents_sorted r heap none none h hwf).1

/-- C1: sorted scan.  For every finite sequence of `Insert(k_i, v_i)` calls
on an initially empty tree, scanning from `Begin()` until `IsEnd` (the
bounded scan with fuel `ops.length`, which by the last conjunct is already
the full scan: more fuel yields the same pairs) yields exactly the inserted
pairs as a multiset, in non-decreasing key order, and the number of yielded
pairs equals the number of inserts performed. -/
theorem sorted_scan (ops : List (Int × Int)) :
    (iterScan (BPlusTree.build ops).heap ops.length
        (BPlusTree.build ops).Begin).Perm
      (ops.map fun p => (⟨p.1, p.2⟩ : KeyValue))
    ∧ ((iterScan (BPlusTree.build ops).heap ops.length
          (BPlusTree.build ops).Begin).map KeyValue.key).Pairwise (· ≤ ·)
    ∧ (iterScan (BPlusTree.build ops).heap ops.length
        (BPlusTree.build ops).Begin).length = ops.length
    ∧ ∀ extra : Nat,
        iterScan (BPlusTree.build ops).heap (ops.length + extra)
          (BPlusTree.build ops).Begin
        = iterScan (BPlusTree.build ops).heap ops.length
            (BPlusTree.build ops).Begin := by
  obtain ⟨hinv, hperm⟩ := build_inv ops
  have hclen : (BPlusTree.build ops).contents.length = ops.length := by
    rw [hperm.length_eq, List.length_map]
  have hscan := tree_scan (BPlusTree.build ops) hinv ops.length (by omega)
  refine ⟨?_, ?_, ?_, ?_⟩
  · rw [hscan]
    exact hperm
  · rw [hscan]
    exact treeInv_contents_sorted _ hinv
  · rw [hscan, hclen]
  · intro extra
    rw [tree_scan _ hinv (ops.length + extra) (by omega), hscan]

/-- C2: integrity invariant.  After any finite sequence of inserts on an
initially empty tree, `CheckIntegrity` succeeds — key order inside every
node (invariant 3) and the separator bounds of every inner node's children
(invariant 4) hold at every reachable node — and all leaves sit at the same
depth (invariant 6). -/
theorem integrity_after_inserts (ops : List (Int × Int)) :
    (BPlusTree.build ops).CheckIntegrityB = true
    ∧ (BPlusTree.build ops).leafDepths.Pairwise (· = ·) := by
  obtain ⟨hinv, -⟩ := build_inv ops
  rcases hroot : (BPlusTree.build ops).root with _ | r
  · constructor
    · simp only [BPlusTree.CheckIntegrityB, hroot]
    · simp only [BPlusTree.leafDepths, hroot]
      exact List.Pairwise.nil
  · simp only [TreeInv.eq_def, hroot] at hinv
    obtain ⟨h, hwf, -, -⟩ := hinv
    constructor
    · simp only [BPlusTree.CheckIntegrityB, hroot]
      exact nodeWf_checkIntegrity r _ none none h hwf
    · simp only [BPlusTree.leafDepths, hroot]
      exact pairwise_eq_of_all_eq (nodeWf_depths r _ none none h hwf)

/-- C8: the `unique_key` flag has no effect.  `Insert(key, value, true)` and
`Insert(key, value, false)` produce the identical tree from every state (the
flag is accepted and never read), and inserting the same key n times yields
exactly n occurrences of the pair in a full scan. -/
theorem unique_key_no_effect :
    (∀ (t : BPlusTree) (key value : Int),
        t.Insert key value true = t.Insert key value false)
    ∧ ∀ (k v : Int) (n : Nat),
        iterScan (BPlusTree.build (List.replicate n (k, v))).heap n
            (BPlusTree.build (List.replicate n (k, v))).Begin
          = List.replicate n ⟨k, v⟩ := by
  refine ⟨fun t key value => rfl, ?_⟩
  intro k v n
  obtain ⟨hinv, hperm⟩ := build_inv (List.replicate n (k, v))
  have hmap : (List.replicate n (k, v)).map (fun p => (⟨p.1, p.2⟩ : KeyValue))
      = List.replicate n ⟨k, v⟩ := by
    rw [List.map_replicate]
  rw [hmap] at hperm
  have hlen : (BPlusTree.build (List.replicate n (k, v))).contents.length = n := by
    rw [hperm.length_eq, List.length_replicate]
  rw [tree_scan _ hinv n (by omega)]
  rw [List.eq_replicate_iff]
  exact ⟨hlen, fun b hb => List.eq_of_mem_replicate (hperm.mem_iff.mp hb)⟩

/-! ## The 0..256 root-growth scenario -/

/-- After inserting `0..255` the root leaf is exactly `fullLeaf256`, and the
257th insert splits it, installing the first inner root with one separator
and the two leaf pointers. -/
theorem build_257 :
    ∃ (heap2 : Heap) (sk : Int),
      BPlusTree.build (ascOps 257)
        = ⟨heap2, some (.inner [sk] [.leafRef 0, .leafRef 1])⟩ := by
  have hfold : BPlusTree.build (ascOps 257)
      = (BPlusTree.build (ascOps 256)).Insert (Int.ofNat 256) (Int.ofNat 256) := by
    rw [show ascOps 257 = ascOps 256 ++ [(Int.ofNat 256, Int.ofNat 256)] from by
      rw [ascOps, ascOps, List.range_succ, List.map_append]; rfl]
    rw [BPlusTree.build, BPlusTree.build, List.foldl_append]
    rfl
  rw [hfold, build_ascending 256 (by omega) (by omega),
    show (⟨[⟨(List.range 256).map Int.ofNat, (List.range 256).map Int.ofNat,
            none, none⟩], some (.leafRef 0)⟩ : BPlusTree)
      = ⟨[fullLeaf256], some (.leafRef 0)⟩ from rfl]
  have hfull : fullLeaf256.IsFull = true := by
    simp [fullLeaf256, LeafNode.IsFull, leaf_slotmax]
  have hsorted : fullLeaf256.keys.Pairwise (· ≤ ·) :=
    ((List.pairwise_lt_range 256).map Int.ofNat
      (fun a b hab => Int.ofNat_lt.mpr hab)).imp le_of_lt
  obtain ⟨self1, new1, sk, heq, -⟩ :=
    leafInsert_full_spec fullLeaf256 (Int.ofNat 256) (Int.ofNat 256) none none
      hfull hsorted rfl (fun k _ a ha => nomatch ha) (fun k _ b hb => nomatch hb)
      (fun a ha => nomatch ha) (fun b hb => nomatch hb)
  obtain ⟨heap2, hheap⟩ : ∃ heap2,
      heapLeafInsert [fullLeaf256] 0 (Int.ofNat 256) (Int.ofNat 256)
        = (heap2, some (1, sk)) := by
    rw [heapLeafInsert]
    simp only [show hget [fullLeaf256] 0 = fullLeaf256 from rfl, heq]
    exact ⟨_, rfl⟩
  have hnode : (Node.leafRef 0).Insert [fullLeaf256] (Int.ofNat 256) (Int.ofNat 256)
      = (.leafRef 0, heap2, some (.leafRef 1, sk)) := by
    rw [Node.Insert, hheap]
  refine ⟨heap2, sk, ?_⟩
  rw [BPlusTree.Insert]
  simp only []
  rw [hnode]

/-- C6: root growth.  When the root insert reports a new sibling with split
key `s`, `BPlusTree::Insert` installs a fresh inner root with `keys = [s]`
and `children = [old_root, new_sibling]` (`slotused = 1`); when no split is
reported the returned root is installed unchanged and on a well-formed tree
its height is unchanged, while the root-split installation raises the height
by exactly one — the tree grows in height only there.  Concretely, after
inserting keys 0..256 in ascending order the root is an inner node with one
separator and two leaf children, and a full scan returns 0..256 in order. -/
theorem root_growth :
    (∀ (t : BPlusTree) (r root1 nc : Node) (heap1 : Heap) (nk key value : Int)
        (u : Bool),
        t.root = some r →
        r.Insert t.heap key value = (root1, heap1, some (nc, nk)) →
        t.Insert key value u = ⟨heap1, some (.inner [nk] [root1, nc])⟩)
    ∧ (∀ (t : BPlusTree) (r root1 : Node) (heap1 : Heap) (key value : Int)
        (u : Bool),
        t.root = some r →
        r.Insert t.heap key value = (root1, heap1, none) →
        t.Insert key value u = ⟨heap1, some root1⟩)
    ∧ (∀ (heap heap1 : Heap) (r root1 : Node) (rr : Option (Node × Int))
        (key value : Int) (h : Nat),
        NodeWf heap r none none h → r.leafIds.Nodup →
        r.Insert heap key value = (root1, heap1, rr) →
        match rr with
        | none => root1.height = r.height
        | some (nc, nk) => (Node.inner [nk] [root1, nc]).height = r.height + 1)
    ∧ (match (BPlusTree.build (ascOps 257)).root with
       | some (.inner ks cs) => ks.length = 1
           ∧ match cs with
             | [.leafRef _, .leafRef _] => True
             | _ => False
       | _ => False)
    ∧ iterScan (BPlusTree.build (ascOps 257)).heap 257
        (BPlusTree.build (ascOps 257)).Begin
      = (List.range 257).map fun i => (⟨Int.ofNat i, Int.ofNat i⟩ : KeyValue) := by
  refine ⟨?_, ?_, ?_, ?_, ?_⟩
  · intro t r root1 nc heap1 nk key value u hroot heq
    obtain ⟨heap, root⟩ := t
    simp only [] at hroot heq
    subst hroot
    rw [BPlusTree.Insert]
    simp only []
    rw [heq]
  · intro t r root1 heap1 key value u hroot heq
    obtain ⟨heap, root⟩ := t
    simp only [] at hroot heq
    subst hroot
    rw [BPlusTree.Insert]
    simp only []
    rw [heq]
  · intro heap heap1 r root1 rr key value h hwf hnd heq
    have hspec := insert_spec r heap key value none none h hwf hnd
      (fun a ha => nomatch ha) (fun b hb => nomatch hb)
    rw [heq] at hspec
    unfold InsertSpec at hspec
    obtain ⟨-, -, -, hs4⟩ := hspec
    simp only [] at hs4
    have hr : r.height = h := nodeWf_height r heap none none h hwf
    match rr, hs4 with
    | none, hs4 =>
      show root1.height = r.height
      rw [nodeWf_height root1 heap1 none none h hs4.1, hr]
    | some (nc, nk), hs4 =>
      obtain ⟨hw1, hw2, -, -, -⟩ := hs4
      have hwroot : NodeWf heap1 (.inner [nk] [root1, nc]) none none (h + 1) := by
        rw [NodeWf]
        refine ⟨by omega, by simp, by simp [leaf_slotmax], ?_⟩
        have he : h + 1 - 1 = h := by omega
        rw [he]
        exact cw_cons_mk hw1 (cw_nil_mk hw2)
      show (Node.inner [nk] [root1, nc]).height = r.height + 1
      rw [nodeWf_height _ heap1 none none (h + 1) hwroot, hr]
  · obtain ⟨heap2, sk, heq⟩ := build_257
    rw [heq]
    exact ⟨rfl, trivial⟩
  · obtain ⟨hinv, hperm⟩ := build_inv (ascOps 257)
    have hmap : (ascOps 257).map (fun p => (⟨p.1, p.2⟩ : KeyValue))
        = (List.range 257).map fun i => (⟨Int.ofNat i, Int.ofNat i⟩ : KeyValue) := by
      rw [ascOps, List.map_map]
      rfl
    rw [hmap] at hperm
    have hlen : (BPlusTree.build (ascOps 257)).contents.length = 257 := by
      rw [hperm.length_eq, List.length_map, List.length_range]
    rw [tree_scan _ hinv 257 (by omega)]
    refine perm_sorted_unique _ _ hperm (treeInv_contents_sorted _ hinv) ?_
    rw [List.map_map]
    exact List.Pairwise.map _ (fun a b hab => Int.ofNat_lt.mpr hab)
      (List.pairwise_lt_range 257)

set_option maxRecDepth 4096 in
/-- Witness for `root_growth`: the tree rooted at the full leaf `0..255`
splits on inserting key 300 and installs a two-child inner root, while a
one-pair tree absorbs an insert with root and height unchanged. -/
theorem root_growth_witness :
    (∃ (heap1 : Heap) (sk : Int),
      (BPlusTree.mk [fullLeaf256] (some (.leafRef 0))).Insert 300 3 false
        = ⟨heap1, some (.inner [sk] [.leafRef 0, .leafRef 1])⟩)
    ∧ (BPlusTree.mk [⟨[5], [5], none, none⟩] (some (.leafRef 0))).Insert 7 7 false
        = ⟨[⟨[5, 7], [5, 7], none, none⟩], some (.leafRef 0)⟩
    ∧ (Node.leafRef 0).height = (Node.leafRef 0).height := by
  have hsorted : fullLeaf256.keys.Pairwise (· ≤ ·) :=
    ((List.pairwise_lt_range 256).map Int.ofNat
      (fun a b hab => Int.ofNat_lt.mpr hab)).imp le_of_lt
  obtain ⟨self1, new1, sk, heq, -⟩ :=
    leafInsert_full_spec fullLeaf256 300 3 none none (by decide) hsorted rfl
      (fun k _ a ha => nomatch ha) (fun k _ b hb => nomatch hb)
      (fun a ha => nomatch ha) (fun b hb => nomatch hb)
  obtain ⟨heap2, hheap⟩ : ∃ heap2,
      heapLeafInsert [fullLeaf256] 0 300 3 = (heap2, some (1, sk)) := by
    rw [heapLeafInsert]
    simp only [show hget [fullLeaf256] 0 = fullLeaf256 from rfl, heq]
    exact ⟨_, rfl⟩
  have hnode : (Node.leafRef 0).Insert [fullLeaf256] 300 3
      = (.leafRef 0, heap2, some (.leafRef 1, sk)) := by
    rw [Node.Insert, hheap]
  have hins2 : (⟨[5], [5], none, none⟩ : LeafNode).Insert 7 7
      = (⟨[5, 7], [5, 7], none, none⟩, none) := by
    rw [LeafNode.insert_nonfull _ _ _ (by decide)]
    rfl
  have hheap2 : heapLeafInsert [⟨[5], [5], none, none⟩] 0 7 7
      = ([⟨[5, 7], [5, 7], none, none⟩], none) := by
    rw [heapLeafInsert]
    simp only [show hget [(⟨[5], [5], none, none⟩ : LeafNode)] 0
      = ⟨[5], [5], none, none⟩ from rfl, hins2]
    rfl
  have hnode2 : (Node.leafRef 0).Insert [⟨[5], [5], none, none⟩] 7 7
      = (.leafRef 0, [⟨[5, 7], [5, 7], none, none⟩], none) := by
    rw [Node.Insert, hheap2]
  have hwf2 : NodeWf [(⟨[5], [5], none, none⟩ : LeafNode)] (.leafRef 0)
      none none 0 := by
    rw [NodeWf]
    refine ⟨rfl, ?_⟩
    unfold leafWf
    refine ⟨by decide, by decide, by decide, by decide, by decide, ?_, ?_⟩
    · intro k hk a ha
      simp at ha
    · intro k hk b hb
      simp at hb
  refine ⟨⟨heap2, sk,
      root_growth.1 _ (.leafRef 0) (.leafRef 0) (.leafRef 1) heap2 sk 300 3 false
        rfl hnode⟩,
    root_growth.2.1 _ (.leafRef 0) (.leafRef 0) _ 7 7 false rfl hnode2, ?_⟩
  exact root_growth.2.2.1 [(⟨[5], [5], none, none⟩ : LeafNode)]
    [(⟨[5, 7], [5, 7], none, none⟩ : LeafNode)] (.leafRef 0) (.leafRef 0) none
    7 7 0 hwf2 (by rw [leafIds_leaf]; decide) hnode2
